import Mathlib

/-!
Verification of the shard-state ingestion and archive synchronization core of a
TON-family node indexer, as a shallow embedding in Lean.  Every definition is
translated from the corresponding Rust function; where the Rust file is absent
from the sources (the cell `parser`, the `EntriesBuffer` accessors and the
`BlockMeta` flag word), the definition is modelled from the specification and
marked as such in its doc comment.
-/

set_option autoImplicit false

namespace TonIndexer

/-- Block identifier: `(workchain_id, shard tag, seq_no, root_hash, file_hash)`.
Hashes are abstracted to naturals; only identity matters here. -/
structure BlockIdExt where
  workchain : Int
  shardTag : Nat
  seq_no : Nat
  root_hash : Nat
  file_hash : Nat
  deriving DecidableEq, Repr

/-! ## Engine::last_applied_block (engine/complex_operations/sync/mod.rs:409-419) -/

/-- `Engine::last_applied_block`: picks the shards-client block id when the
last-applied masterchain block is strictly ahead of it, else the last-applied id. -/
def lastAppliedBlock (mcBlockId scBlockId : BlockIdExt) : BlockIdExt :=
  if mcBlockId.seq_no > scBlockId.seq_no then scBlockId else mcBlockId

/-- `sync` (engine/complex_operations/sync/mod.rs:25-35): the archive stream is
opened with range `last_applied + 1 ..`, so downloading starts here. -/
def syncStartSeqNo (mcBlockId scBlockId : BlockIdExt) : Nat :=
  (lastAppliedBlock mcBlockId scBlockId).seq_no + 1

/-! ## BlockHandle::set_masterchain_ref_seqno (storage/block_handle.rs:67-73) -/

/-- Modelled from the spec: `BlockMeta::set_masterchain_ref_seqno` from the
missing `block_meta.rs`.  Per the spec ("Once set non-zero, the ref seqno may
not change to a different value; re-setting to the same value is a no-op") and
the caller in `block_handle.rs`, it returns the previously stored value and
stores the new one only when the previous value was zero. -/
def metaSetMasterchainRefSeqno (stored newSeqno : Nat) : Nat × Nat :=
  (stored, if stored = 0 then newSeqno else stored)

inductive BlockHandleError where
  | refSeqnoAlreadySet
  deriving DecidableEq, Repr

/-- `BlockHandle::set_masterchain_ref_seqno`: `Ok(true)` when the previous meta
value was `0`, `Ok(false)` when it already equals the new value, and
`RefSeqnoAlreadySet` otherwise.  The returned natural is the meta value after
the call. -/
def setMasterchainRefSeqno (stored newSeqno : Nat) :
    Except BlockHandleError (Bool × Nat) :=
  let r := metaSetMasterchainRefSeqno stored newSeqno
  if r.1 = 0 then .ok (true, r.2)
  else if r.1 = newSeqno then .ok (false, r.2)
  else .error .refSeqnoAlreadySet

/-! ## Block Index DB (storage/block_index_db.rs) -/

/-- Per-shard summary row (`LtDesc`). -/
structure LtDesc where
  first_index : Nat
  last_index : Nat
  last_seq_no : Nat
  last_lt : Nat
  last_utime : Nat
  deriving DecidableEq, Repr

/-- Per-index row (`LtDbEntry`). -/
structure LtDbEntry where
  block_id : BlockIdExt
  gen_lt : Nat
  gen_utime : Nat
  deriving DecidableEq, Repr

/-- Shard ident: workchain id and shard prefix tag, the serialized `LtDesc` key. -/
abbrev ShardKey := Int × Nat

def BlockIdExt.shardKey (id : BlockIdExt) : ShardKey := (id.workchain, id.shardTag)

/-- The slice of a block handle used by `add_handle`: its id and the meta
fields `gen_lt` / `gen_utime`. -/
structure BlockHandleData where
  id : BlockIdExt
  gen_lt : Nat
  gen_utime : Nat

/-- The two column families of `BlockIndexDb` as partial maps. -/
structure BlockIndexState where
  ltDesc : ShardKey → Option LtDesc
  lt : ShardKey × Nat → Option LtDbEntry

inductive BlockIndexDbError where
  | ascendingOrderRequired
  | ltDbEntryNotFound
  | blockNotFound
  deriving DecidableEq, Repr

/-- Pointwise map update, modelling a key-value `insert`. -/
def updMap {α β : Type} [DecidableEq α] (f : α → Option β) (k : α) (v : β) :
    α → Option β :=
  fun x => if x = k then some v else f x

/-- The two writes of `BlockIndexDb::add_handle` (block_index_db.rs:188-209):
store the `Lt` entry under `index` and overwrite the shard's `LtDesc`
(the stored `first_index` is the constant 1). -/
def addHandleStore (st : BlockIndexState) (h : BlockHandleData) (index : Nat) :
    BlockIndexState :=
  { ltDesc := updMap st.ltDesc h.id.shardKey
      { first_index := 1, last_index := index, last_seq_no := h.id.seq_no,
        last_lt := h.gen_lt, last_utime := h.gen_utime }
    lt := updMap st.lt (h.id.shardKey, index)
      { block_id := h.id, gen_lt := h.gen_lt, gen_utime := h.gen_utime } }

/-- `BlockIndexDb::add_handle` (block_index_db.rs:172-212). -/
def addHandle (st : BlockIndexState) (h : BlockHandleData) :
    Except BlockIndexDbError BlockIndexState :=
  match st.ltDesc h.id.shardKey with
  | some desc =>
    if h.id.seq_no = desc.last_seq_no then .ok st
    else if h.id.seq_no > desc.last_seq_no then
      .ok (addHandleStore st h (desc.last_index + 1))
    else .error .ascendingOrderRequired
  | none => .ok (addHandleStore st h 1)

/-- Outcome of the `gc` id loop (block_index_db.rs:258-276): an early
`return Ok(())` on an id whose seq_no equals the shard's `last_seq_no`
(both delete batches are dropped), an error, or the accumulated batches. -/
inductive GcLoopResult where
  | earlyOk
  | err (e : BlockIndexDbError)
  | done (ltDeletes : List (ShardKey × Nat)) (descDeletes : List ShardKey)

/-- The id loop of `BlockIndexDb::gc`, accumulating the `lt` and `lt_desc`
delete batches. -/
def gcLoop (st : BlockIndexState) :
    List BlockIdExt → List (ShardKey × Nat) → List ShardKey → GcLoopResult
  | [], ltDeletes, descDeletes => .done ltDeletes descDeletes
  | id :: rest, ltDeletes, descDeletes =>
    match st.ltDesc id.shardKey with
    | some desc =>
      if id.seq_no = desc.last_seq_no then .earlyOk
      else if id.seq_no > desc.last_seq_no then
        gcLoop st rest (ltDeletes ++ [(id.shardKey, desc.last_index + 1)])
          (descDeletes ++ [id.shardKey])
      else .err .ascendingOrderRequired
    | none =>
      gcLoop st rest (ltDeletes ++ [(id.shardKey, 1)]) (descDeletes ++ [id.shardKey])

/-- Application of the two rocksdb delete batches at the end of `gc`. -/
def applyGcDeletes (st : BlockIndexState) (ltDeletes : List (ShardKey × Nat))
    (descDeletes : List ShardKey) : BlockIndexState :=
  { ltDesc := fun k => if k ∈ descDeletes then none else st.ltDesc k
    lt := fun p => if p ∈ ltDeletes then none else st.lt p }

/-- `BlockIndexDb::gc` (block_index_db.rs:251-280): run the loop, then write
the batches; the batches are lost when the loop exits early. -/
def gcBlockIndex (st : BlockIndexState) (ids : List BlockIdExt) :
    Except BlockIndexDbError BlockIndexState :=
  match gcLoop st ids [] [] with
  | .earlyOk => .ok st
  | .err e => .error e
  | .done ltDeletes descDeletes => .ok (applyGcDeletes st ltDeletes descDeletes)

/-- An id that the gc loop batches and passes over: its shard's `LtDesc` is
absent, or its seq_no lies strictly above the recorded `last_seq_no`. -/
def gcPasses (st : BlockIndexState) (id : BlockIdExt) : Prop :=
  st.ltDesc id.shardKey = none ∨
    ∃ desc, st.ltDesc id.shardKey = some desc ∧ desc.last_seq_no < id.seq_no

/-! ## Archive sync (engine/complex_operations/sync.rs) -/

inductive SyncError where
  | brokenQueue
  | emptyArchivePackage
  | masterchainBlockIdMismatch
  | blocksSkippedInArchive
  | blockNotFound
  | blockProofNotFound
  | masterchainBlockNotFound
  | shardchainBlockHandleNotFound
  | engineFailure (code : Nat)
  deriving DecidableEq, Repr

/-- An archive `BlocksEntry`: optional block and proof, payloads abstracted. -/
structure BlocksEntry where
  block : Option Nat
  proof : Option Nat
  deriving DecidableEq, Repr

/-- `BlocksEntry::get_data` (sync.rs:515-525). -/
def BlocksEntry.getData (e : BlocksEntry) : Except SyncError (Nat × Nat) :=
  match e.block with
  | none => .error .blockNotFound
  | some b =>
    match e.proof with
    | none => .error .blockProofNotFound
    | some p => .ok (b, p)

/-- The engine operations used by `import_mc_blocks`: the block-handle lookup
(`load_block_handle`, `some` carries the handle's `is_applied` bit) and the
combined `save_block` + `apply_block_ext` step, whose failures are arbitrary
engine errors. -/
structure McImportEngine where
  loadHandle : BlockIdExt → Option Bool
  saveAndApply : BlockIdExt → Except SyncError Unit

/-- `import_mc_blocks` (sync.rs:323-359, identical in sync/mod.rs:102-143):
walk the masterchain ids — ascending in seq_no, as `maps.mc_block_ids.values()`
yields them — with the running `last_mc_block_id`; returns the final last id
and the list of ids applied, in order.  The `maps.blocks.get(..).unwrap()` is
modelled by defaulting to an empty entry (whose `get_data` fails), a case
unreachable for archives built by `parse_archive`. -/
def importMcBlocks (eng : McImportEngine) (blocks : BlockIdExt → Option BlocksEntry) :
    List BlockIdExt → BlockIdExt → Except SyncError (BlockIdExt × List BlockIdExt)
  | [], last => .ok (last, [])
  | id :: rest, last =>
    if id.seq_no ≤ last.seq_no then
      if id.seq_no = last.seq_no ∧ last ≠ id then .error .masterchainBlockIdMismatch
      else importMcBlocks eng blocks rest last
    else if id.seq_no ≠ last.seq_no + 1 then .error .blocksSkippedInArchive
    else
      match eng.loadHandle id with
      | some true => importMcBlocks eng blocks rest id
      | _ =>
        match ((blocks id).getD ⟨none, none⟩).getData with
        | .error e => .error e
        | .ok _ =>
          match eng.saveAndApply id with
          | .error e => .error e
          | .ok _ =>
            match importMcBlocks eng blocks rest id with
            | .error e => .error e
            | .ok (l, applied) => .ok (l, id :: applied)

/-- Archive download state in the sync queue (sync.rs:284-288). -/
inductive ArchiveStatus where
  | downloading
  | notFound
  | downloaded (data : List Nat)
  deriving DecidableEq, Repr

def ArchiveStatus.isDownloaded : ArchiveStatus → Bool
  | .downloaded _ => true
  | _ => false

/-- The sync `Queue`, as the association list its `HashMap` iteration yields. -/
abbrev SyncQueue := List (Nat × ArchiveStatus)

/-- One step of the first fold of `retry_downloading_not_found_archives`
(sync.rs:191-199). -/
def retryLatestStep (latest : Option Nat) (p : Nat × ArchiveStatus) : Option Nat :=
  match p.2 with
  | .downloaded _ =>
    match latest with
    | some l => if l ≥ p.1 then some l else some p.1
    | none => some p.1
  | _ => latest

/-- The largest seq_no in the queue whose status is `Downloaded`. -/
def retryLatest (queue : SyncQueue) : Option Nat :=
  queue.foldl retryLatestStep none

/-- Re-issue loop (sync.rs:203-212): every `NotFound` entry with seq_no ≤
`latest` becomes `Downloading` and is passed to `start_download`; returns the
updated queue and the re-issued seq_nos in iteration order. -/
def reissueNotFoundUpTo (latest : Nat) : SyncQueue → SyncQueue × List Nat
  | [] => ([], [])
  | (s, st) :: rest =>
    let r := reissueNotFoundUpTo latest rest
    if latest < s then ((s, st) :: r.1, r.2)
    else
      match st with
      | .notFound => ((s, ArchiveStatus.downloading) :: r.1, s :: r.2)
      | _ => ((s, st) :: r.1, r.2)

/-- Earliest-NotFound scan (sync.rs:216-224): the running minimum over
`NotFound` seq_nos, aborting (the `return Ok(())` arm) at any other status. -/
def earliestNotFoundOnly : SyncQueue → Option Nat → Option (Option Nat)
  | [], earliest => some earliest
  | (s, ArchiveStatus.notFound) :: rest, earliest =>
    match earliest with
    | some e =>
      if e ≤ s then earliestNotFoundOnly rest (some e)
      else earliestNotFoundOnly rest (some s)
    | none => earliestNotFoundOnly rest (some s)
  | _ :: _, _ => none

/-- `retry_downloading_not_found_archives` (sync.rs:185-238): returns the
updated queue and the seq_nos passed to `start_download`. -/
def retryDownloadingNotFoundArchives (isSynced : Bool) (queue : SyncQueue) :
    SyncQueue × List Nat :=
  match retryLatest queue with
  | some latest => reissueNotFoundUpTo latest queue
  | none =>
    if isSynced then (queue, [])
    else
      match earliestNotFoundOnly queue none with
      | none => (queue, [])
      | some none => (queue, [])
      | some (some e) =>
        (queue.map fun p => if p.1 = e then (e, ArchiveStatus.downloading) else p, [e])

/-! ## Shard-state replace transaction (db/shard_state_storage/replace_transaction.rs) -/

/-- Decoded BoC header (spec §4.D phase 1). -/
structure BocHeader where
  has_crc : Bool
  ref_size : Nat
  offset_size : Nat
  cell_count : Nat
  deriving DecidableEq, Repr

/-- Modelled from the spec: the `ShardStatePacketReader` interface of the
missing `parser.rs`.  `read_header`, `read_cell` and `read_crc` consume bytes
from the reader state; a `none` result means "need more bytes", not failure
(spec §4.D); `read_cell` produces one stored cell record. -/
structure ReaderOps (σ ε : Type) where
  readHeader : σ → Except ε (Option BocHeader × σ)
  readCell : σ → Except ε (Option (List Nat) × σ)
  readCrc : σ → Except ε (Option Unit × σ)

/-- The mutable state of `ShardStateReplaceTransaction` during phase 1: the
reader, the decoded header and the cumulative `cells_read`; `crcRead` mirrors
the reader's internal CRC progress (true once the trailing CRC was consumed). -/
structure ReplaceTxState (σ : Type) where
  reader : σ
  header : Option BocHeader
  cellsRead : Nat
  crcRead : Bool

/-- Little-endian bytes of `(n : u32).to_le_bytes()`. -/
def u32le (n : Nat) : List Nat :=
  [n % 256, n / 256 % 256, n / 65536 % 256, n / 16777216 % 256]

/-- The cell loop of `process_packet` (replace_transaction.rs:79-90): read up
to `cell_count - cells_read` records, appending each record followed by one
byte holding its length (the `u8` cast of `cell_size`), and accumulating the
chunk byte size.  Returns the reader, the new `cells_read`, the appended
bytes and the chunk size. -/
def processCells {σ ε : Type} (ops : ReaderOps σ ε) :
    Nat → σ → Nat → List Nat → Nat → Except ε (σ × Nat × List Nat × Nat)
  | 0, r, n, out, chunk => .ok (r, n, out, chunk)
  | fuel + 1, r, n, out, chunk =>
    match ops.readCell r with
    | .error e => .error e
    | .ok (none, r') => .ok (r', n, out, chunk)
    | .ok (some record, r') =>
      processCells ops fuel r' (n + 1) (out ++ record ++ [record.length % 256])
        (chunk + record.length + 1)

/-- The tail of `process_packet` once the header is available
(replace_transaction.rs:76-108): run the cell loop, append the `u32`
little-endian chunk size when the chunk is non-empty, then check completion
and the optional CRC. -/
def processPacketCells {σ ε : Type} (ops : ReaderOps σ ε) (st : ReplaceTxState σ)
    (h : BocHeader) : Except ε (Bool × ReplaceTxState σ × List Nat) :=
  match processCells ops (h.cell_count - st.cellsRead) st.reader st.cellsRead [] 0 with
  | .error e => .error e
  | .ok (r, n, out, chunk) =>
    let out' := if chunk > 0 then out ++ u32le chunk else out
    let st' : ReplaceTxState σ := { st with reader := r, cellsRead := n }
    if n < h.cell_count then .ok (false, st', out')
    else if h.has_crc then
      match ops.readCrc r with
      | .error e => .error e
      | .ok (none, r₂) => .ok (false, { st' with reader := r₂ }, out')
      | .ok (some _, r₂) => .ok (true, { st' with reader := r₂, crcRead := true }, out')
    else .ok (true, st', out')

/-- `ShardStateReplaceTransaction::process_packet`
(replace_transaction.rs:48-109).  The packet bytes are already inside
`st.reader` (`set_next_packet`); returns the result flag, the new state and
the bytes appended to the cells spill file. -/
def processPacket {σ ε : Type} (ops : ReaderOps σ ε) (st : ReplaceTxState σ) :
    Except ε (Bool × ReplaceTxState σ × List Nat) :=
  match st.header with
  | none =>
    match ops.readHeader st.reader with
    | .error e => .error e
    | .ok (none, r') => .ok (false, { st with reader := r' }, [])
    | .ok (some h, r') =>
      processPacketCells ops { st with reader := r', header := some h } h
  | some h => processPacketCells ops st h

/-- Reader operations that never fail (each read returns `Ok`). -/
def ReaderOps.total {σ ε : Type} (ops : ReaderOps σ ε) : Prop :=
  (∀ s, ∃ v, ops.readHeader s = .ok v) ∧
  (∀ s, ∃ v, ops.readCell s = .ok v) ∧
  (∀ s, ∃ v, ops.readCrc s = .ok v)

/-- Well-formedness of the transaction state across `process_packet` calls
while the stream is still being consumed: no header implies nothing read yet,
a header bounds `cells_read`, and the CRC has not yet been consumed. -/
def ReplaceTxState.wf {σ : Type} (st : ReplaceTxState σ) : Prop :=
  (st.header = none → st.cellsRead = 0) ∧
  (∀ h, st.header = some h → st.cellsRead ≤ h.cell_count) ∧
  st.crcRead = false

/-- One spill-file record: the stored cell bytes followed by the single byte
holding the record's length. -/
def recordWithLen (record : List Nat) : List Nat := record ++ [record.length % 256]

/-- A chunk body: its records concatenated, each self-delimiting from the tail. -/
def chunkBody (records : List (List Nat)) : List Nat :=
  (records.map recordWithLen).flatten

/-- The bytes one packet appends to the cells file: the chunk body followed by
its `u32` little-endian byte length, or nothing when no record was produced. -/
def chunkFile (records : List (List Nat)) : List Nat :=
  if chunkBody records = [] then []
  else chunkBody records ++ u32le (chunkBody records).length

/-- `u32::from_le_bytes` over a 4-byte list. -/
def leU32 (bytes : List Nat) : Nat :=
  match bytes with
  | [b0, b1, b2, b3] => b0 + 256 * b1 + 65536 * b2 + 16777216 * b3
  | _ => 0

/-- The record loop of `finalize` (replace_transaction.rs:166-202), peeling
records from the tail of a chunk: the last byte is the record length, the
record precedes it.  Fuel bounds the loop; `none` models the `usize`
underflow panic on a malformed chunk. -/
def peelRecords : Nat → List Nat → Option (List (List Nat))
  | _, [] => some []
  | 0, _ :: _ => none
  | fuel + 1, b :: bs =>
    let chunk := b :: bs
    let cellSize := (chunk.getLast?).getD 0
    if chunk.length < cellSize + 1 then none
    else
      (peelRecords fuel (chunk.take (chunk.length - (cellSize + 1)))).map
        fun records => ((chunk.drop (chunk.length - (cellSize + 1))).take cellSize) :: records

/-- The chunk step of `finalize` (replace_transaction.rs:150-160): read the
trailing `u32` chunk size, seek back over the chunk, peel its records; the
remaining file prefix is returned for the next iteration. -/
def peelTailChunk (file : List Nat) : Option (List (List Nat) × List Nat) :=
  if file.length < 4 then none
  else
    let chunkSize := leU32 (file.drop (file.length - 4))
    let woTail := file.take (file.length - 4)
    if woTail.length < chunkSize then none
    else
      (peelRecords (woTail.drop (woTail.length - chunkSize)).length
          (woTail.drop (woTail.length - chunkSize))).map
        fun records => (records, woTail.take (woTail.length - chunkSize))

/-! ## finalize_cell depth bookkeeping (replace_transaction.rs:243-426) -/

/-- Cell types (`ton_types::CellType`). -/
inductive CellType where
  | ordinary
  | prunedBranch
  | libraryReference
  | merkleProof
  | merkleUpdate
  | unknown
  deriving DecidableEq, Repr

/-- Modelled from the spec: `ton_types::MAX_DEPTH`, the external depth bound
(spec §3: every stored depth is at most 60). -/
def MAX_DEPTH : Nat := 60

inductive ReplaceTransactionError where
  | notFound
  | invalidShardStatePacket
  | invalidCell
  deriving DecidableEq, Repr

/-- One child slot of the `EntriesBuffer` as consumed by the depth bookkeeping
of `finalize_cell` (replace_transaction.rs:335-357).  `depthAt` is the
`HashesEntry::depth(level)` accessor and `prunedData` the optional
`pruned_branches` record together with its `pruned_branch_depth(i, data)`
view; both are modelled from the spec, `entries_buffer.rs` being absent from
the sources. -/
structure ChildSlot where
  cellType : CellType
  depthAt : Nat → Nat
  prunedData : Option (Nat → Nat)

/-- Child depth selection at hash level `i` (replace_transaction.rs:336-345):
a pruned child reads its depth from the recorded pruned data (failing with
`InvalidCell` when the record is missing), any other child from its
`HashesEntry` at level `i + 1` for Merkle cells and `i` otherwise. -/
def childDepth (isMerkleCell : Bool) (i : Nat) (c : ChildSlot) :
    Except ReplaceTransactionError Nat :=
  if c.cellType = CellType.prunedBranch then
    match c.prunedData with
    | some pd => .ok (pd i)
    | none => .error .invalidCell
  else .ok (c.depthAt (if isMerkleCell then i + 1 else i))

/-- The per-level child loop of `finalize_cell`
(replace_transaction.rs:335-357): `max_depths[i]` becomes
`max(max_depths[i], child_depth + 1)` and the call fails with `InvalidCell`
("max tree depth exceeded") as soon as it exceeds `MAX_DEPTH`; the returned
value is the one last stored by `set_depth(i, ..)`. -/
def levelMaxDepth (isMerkleCell : Bool) (i : Nat) :
    List ChildSlot → Nat → Except ReplaceTransactionError Nat
  | [], d => .ok d
  | c :: rest, d =>
    match childDepth isMerkleCell i c with
    | .error e => .error e
    | .ok cd =>
      if max d (cd + 1) > MAX_DEPTH then .error .invalidCell
      else levelMaxDepth isMerkleCell i rest (max d (cd + 1))

/-- The level loop `for i in 0..hash_count` of the depth bookkeeping; each
level has its own `max_depths` slot starting at 0. -/
def depthsLoop (isMerkleCell : Bool) (children : List ChildSlot) :
    List Nat → Except ReplaceTransactionError (List Nat)
  | [] => .ok []
  | i :: rest =>
    match levelMaxDepth isMerkleCell i children 0 with
    | .error e => .error e
    | .ok d =>
      match depthsLoop isMerkleCell children rest with
      | .error e => .error e
      | .ok ds => .ok (d :: ds)

/-- The depths stored into the current `HashesEntry` (and serialized into the
cell value, replace_transaction.rs:394-397) by a `finalize_cell` call with the
given children and `hash_count`. -/
def finalizeCellDepths (isMerkleCell : Bool) (children : List ChildSlot)
    (hashCount : Nat) : Except ReplaceTransactionError (List Nat) :=
  depthsLoop isMerkleCell children (List.range hashCount)

/-- Pure value of `childDepth` (meaningful when pruned data is present). -/
def childDepthVal (isMerkleCell : Bool) (i : Nat) (c : ChildSlot) : Nat :=
  if c.cellType = CellType.prunedBranch then (c.prunedData.getD fun _ => 0) i
  else c.depthAt (if isMerkleCell then i + 1 else i)

/-- The claimed per-level maximum: `max` over the children of
`child_depth + 1`. -/
def levelFoldDepth (isMerkleCell : Bool) (i : Nat) (children : List ChildSlot) : Nat :=
  children.foldl (fun d c => max d (childDepthVal isMerkleCell i c + 1)) 0

/-! ## BlockIndexDb::get_block (storage/block_index_db.rs:67-170) -/

/-- `ton_block::MAX_SPLIT_DEPTH`: the deepest shard prefix length. -/
def MAX_SPLIT_DEPTH : Nat := 60

/-- The database view used by `get_block`: for each prefix length, the shard
derived from the account prefix at that depth has an optional `LtDesc` and
`Lt` entries indexed by `index`. -/
structure GetBlockDb where
  ltDescAt : Nat → Option LtDesc
  ltEntryAt : Nat → Nat → Option LtDbEntry

/-- The running search state of `get_block`: `found`, the best upper bound
`result` and the greatest lower-bound seq_no `index_range_begin`. -/
structure SearchState where
  found : Bool
  result : Option BlockIdExt
  index_range_begin : Nat

/-- Outcome of one prefix-depth step: return from the whole function, `break`
out of the depth loop, or continue with an updated state. -/
inductive GetBlockStep where
  | halt (r : Except BlockIndexDbError BlockIdExt)
  | stop
  | next (st : SearchState)

/-- The binary search over `[first_index, last_index]`
(block_index_db.rs:105-134).  `Sum.inl` is the early `return Ok(block_id)` on
an exact hit; `Sum.inr` carries the bracketing `first_block_id` and
`last_block_id`.  The fuel bounds the loop; running out acts like the
`previous_index` break. -/
def binSearchLoop (db : GetBlockDb) (cmpEntry : LtDbEntry → Ordering) (pl : Nat) :
    Nat → Nat → Nat → Option Nat → Option BlockIdExt → Option BlockIdExt →
    Except BlockIndexDbError (Sum BlockIdExt (Option BlockIdExt × Option BlockIdExt))
  | 0, _, _, _, firstB, lastB => .ok (.inr (firstB, lastB))
  | fuel + 1, first, last, previous, firstB, lastB =>
    if last > first then
      if previous = some (first + (last - first) / 2) then .ok (.inr (firstB, lastB))
      else
        match db.ltEntryAt pl (first + (last - first) / 2) with
        | none => .error .ltDbEntryNotFound
        | some entry =>
          match cmpEntry entry with
          | .eq => .ok (.inl entry.block_id)
          | .lt => binSearchLoop db cmpEntry pl fuel first (first + (last - first) / 2)
              (some (first + (last - first) / 2)) firstB (some entry.block_id)
          | .gt => binSearchLoop db cmpEntry pl fuel (first + (last - first) / 2) last
              (some (first + (last - first) / 2)) (some entry.block_id) lastB
    else .ok (.inr (firstB, lastB))

/-- Merge of `last_block_id` into the best upper bound `result`
(block_index_db.rs:136-144): keep the one with the smaller seq_no. -/
def mergeResult (result lastB : Option BlockIdExt) : Option BlockIdExt :=
  match lastB, result with
  | some l, some r => some (if r.seq_no > l.seq_no then l else r)
  | some l, none => some l
  | none, r => r

/-- Merge of `first_block_id` into `index_range_begin`
(block_index_db.rs:146-150): keep the larger seq_no. -/
def mergeRangeBegin (irb : Nat) (firstB : Option BlockIdExt) : Nat :=
  match firstB with
  | some f => if irb < f.seq_no then f.seq_no else irb
  | none => irb

/-- The post-search update and adjacency check (block_index_db.rs:136-160). -/
def afterSearch (exact : Bool) (st : SearchState)
    (firstB lastB : Option BlockIdExt) : GetBlockStep :=
  match mergeResult st.result lastB with
  | some r =>
    if r.seq_no = mergeRangeBegin st.index_range_begin firstB + 1 then
      if exact then .halt (.error .blockNotFound) else .halt (.ok r)
    else
      .next
        { st with
          result := some r
          index_range_begin := mergeRangeBegin st.index_range_begin firstB }
  | none =>
    .next
      { st with
        result := none
        index_range_begin := mergeRangeBegin st.index_range_begin firstB }

/-- One prefix-depth iteration of `get_block` (block_index_db.rs:82-160). -/
def getBlockStep (db : GetBlockDb) (cmpDesc : LtDesc → Ordering)
    (cmpEntry : LtDbEntry → Ordering) (isMasterchain exact : Bool) (pl : Nat)
    (st : SearchState) : GetBlockStep :=
  match db.ltDescAt pl with
  | none =>
    if st.found then .stop
    else if isMasterchain then .halt (.error .blockNotFound)
    else .next st
  | some desc =>
    if cmpDesc desc = .gt then .next { st with found := true }
    else
      match binSearchLoop db cmpEntry pl (desc.last_index + 1 - desc.first_index + 2)
          desc.first_index (desc.last_index + 1) none none none with
      | .error e => .halt (.error e)
      | .ok (.inl id) => .halt (.ok id)
      | .ok (.inr (firstB, lastB)) => afterSearch exact { st with found := true } firstB lastB

/-- The fallthrough after the depth loop (block_index_db.rs:163-169): return
`result` iff not `exact`, else `BlockNotFound`. -/
def getBlockFinal (exact : Bool) (st : SearchState) :
    Except BlockIndexDbError BlockIdExt :=
  match st.result with
  | some r => if exact then .error .blockNotFound else .ok r
  | none => .error .blockNotFound

/-- The prefix-depth loop of `get_block`. -/
def getBlockLoop (db : GetBlockDb) (cmpDesc : LtDesc → Ordering)
    (cmpEntry : LtDbEntry → Ordering) (isMasterchain exact : Bool) :
    List Nat → SearchState → Except BlockIndexDbError BlockIdExt
  | [], st => getBlockFinal exact st
  | pl :: rest, st =>
    match getBlockStep db cmpDesc cmpEntry isMasterchain exact pl st with
    | .halt r => r
    | .stop => getBlockFinal exact st
    | .next st' => getBlockLoop db cmpDesc cmpEntry isMasterchain exact rest st'

/-- `BlockIndexDb::get_block` (block_index_db.rs:67-170), over the prefix
lengths `0 ..= MAX_SPLIT_DEPTH`. -/
def getBlock (db : GetBlockDb) (cmpDesc : LtDesc → Ordering)
    (cmpEntry : LtDbEntry → Ordering) (isMasterchain exact : Bool) :
    Except BlockIndexDbError BlockIdExt :=
  getBlockLoop db cmpDesc cmpEntry isMasterchain exact
    (List.range (MAX_SPLIT_DEPTH + 1)) ⟨false, none, 0⟩

end TonIndexer

namespace TonIndexer

/-- C10: `Engine::last_applied_block` returns the shards-client id exactly when
the last-applied masterchain seq_no is strictly greater, else the last-applied
id; hence live sync starts downloading from `min(mc, sc) + 1`, rewinding to the
shards-client cursor when it lags. -/
theorem claim_C10_sync_rewinds_to_shards_client (mcBlockId scBlockId : BlockIdExt) :
    (scBlockId.seq_no < mcBlockId.seq_no →
      lastAppliedBlock mcBlockId scBlockId = scBlockId) ∧
    (mcBlockId.seq_no ≤ scBlockId.seq_no →
      lastAppliedBlock mcBlockId scBlockId = mcBlockId) ∧
    (lastAppliedBlock mcBlockId scBlockId).seq_no =
      Nat.min mcBlockId.seq_no scBlockId.seq_no ∧
    syncStartSeqNo mcBlockId scBlockId =
      Nat.min mcBlockId.seq_no scBlockId.seq_no + 1 := by
  refine ⟨fun h => ?_, fun h => ?_, ?_, ?_⟩
  · simp only [lastAppliedBlock, gt_iff_lt, if_pos h]
  · simp only [lastAppliedBlock, gt_iff_lt, if_neg (Nat.not_lt.mpr h)]
  · by_cases h : scBlockId.seq_no < mcBlockId.seq_no
    · simp only [lastAppliedBlock, gt_iff_lt, if_pos h, Nat.min_def]
      split <;> omega
    · simp only [lastAppliedBlock, gt_iff_lt, if_neg h, Nat.min_def]
      split <;> omega
  · unfold syncStartSeqNo
    by_cases h : scBlockId.seq_no < mcBlockId.seq_no
    · simp only [lastAppliedBlock, gt_iff_lt, if_pos h, Nat.min_def]
      split <;> omega
    · simp only [lastAppliedBlock, gt_iff_lt, if_neg h, Nat.min_def]
      split <;> omega

/-- Witness for C10 at a concrete pair of block ids. -/
theorem claim_C10_witness :
    lastAppliedBlock ⟨-1, 0, 5, 0, 0⟩ ⟨-1, 0, 3, 0, 0⟩ = ⟨-1, 0, 3, 0, 0⟩ ∧
    syncStartSeqNo ⟨-1, 0, 5, 0, 0⟩ ⟨-1, 0, 3, 0, 0⟩ = 4 :=
  ⟨(claim_C10_sync_rewinds_to_shards_client ⟨-1, 0, 5, 0, 0⟩ ⟨-1, 0, 3, 0, 0⟩).1
      (by decide),
   by decide⟩

/-- C5: `set_masterchain_ref_seqno` returns `Ok(true)` on first set (stored
value was 0), `Ok(false)` on an idempotent repeat, and fails with
`RefSeqnoAlreadySet` when a different non-zero value is already stored; calling
it twice with the same (non-zero) value yields `true` then `false`, and a later
call with a different value errors. -/
theorem claim_C5_ref_seqno_idempotence (stored newSeqno : Nat) :
    (stored = 0 → setMasterchainRefSeqno stored newSeqno = .ok (true, newSeqno)) ∧
    (stored ≠ 0 → stored = newSeqno →
      setMasterchainRefSeqno stored newSeqno = .ok (false, stored)) ∧
    (stored ≠ 0 → stored ≠ newSeqno →
      setMasterchainRefSeqno stored newSeqno = .error .refSeqnoAlreadySet) ∧
    (0 < newSeqno →
      setMasterchainRefSeqno 0 newSeqno = .ok (true, newSeqno) ∧
      setMasterchainRefSeqno newSeqno newSeqno = .ok (false, newSeqno) ∧
      ∀ other, other ≠ newSeqno →
        setMasterchainRefSeqno newSeqno other = .error .refSeqnoAlreadySet) := by
  refine ⟨fun h => ?_, fun h h' => ?_, fun h h' => ?_, fun h => ⟨?_, ?_, fun other ho => ?_⟩⟩
  · subst h
    simp [setMasterchainRefSeqno, metaSetMasterchainRefSeqno]
  · subst h'
    simp [setMasterchainRefSeqno, metaSetMasterchainRefSeqno, h]
  · simp [setMasterchainRefSeqno, metaSetMasterchainRefSeqno, h, h']
  · simp [setMasterchainRefSeqno, metaSetMasterchainRefSeqno]
  · simp [setMasterchainRefSeqno, metaSetMasterchainRefSeqno, Nat.pos_iff_ne_zero.mp h]
  · simp only [setMasterchainRefSeqno, metaSetMasterchainRefSeqno,
      if_neg (Nat.pos_iff_ne_zero.mp h)]
    exact if_neg (fun hc : newSeqno = other => ho hc.symm)

/-- Witness for C5: setting 42 twice yields true then false; then 43 errors. -/
theorem claim_C5_witness :
    setMasterchainRefSeqno 0 42 = .ok (true, 42) ∧
    setMasterchainRefSeqno 42 42 = .ok (false, 42) ∧
    setMasterchainRefSeqno 42 43 = .error .refSeqnoAlreadySet :=
  ⟨((claim_C5_ref_seqno_idempotence 0 42).2.2.2 (by decide)).1,
   ((claim_C5_ref_seqno_idempotence 0 42).2.2.2 (by decide)).2.1,
   ((claim_C5_ref_seqno_idempotence 0 42).2.2.2 (by decide)).2.2 43 (by decide)⟩

/-- C3: `BlockIndexDb::add_handle` is a no-op on an equal seq_no, fails with
`AscendingOrderRequired` (writing nothing) on a smaller seq_no, appends under
`last_index + 1` on a larger one, and appends under index 1 with
`first_index = 1` when the shard has no `LtDesc`; the last group spells out
exactly what the two writes contain. -/
theorem claim_C3_add_handle_cases (st : BlockIndexState) (h : BlockHandleData) :
    (∀ desc, st.ltDesc h.id.shardKey = some desc →
      (h.id.seq_no = desc.last_seq_no → addHandle st h = .ok st) ∧
      (h.id.seq_no < desc.last_seq_no →
        addHandle st h = .error .ascendingOrderRequired) ∧
      (desc.last_seq_no < h.id.seq_no →
        addHandle st h = .ok (addHandleStore st h (desc.last_index + 1)))) ∧
    (st.ltDesc h.id.shardKey = none → addHandle st h = .ok (addHandleStore st h 1)) ∧
    (∀ index,
      (addHandleStore st h index).lt (h.id.shardKey, index) =
        some { block_id := h.id, gen_lt := h.gen_lt, gen_utime := h.gen_utime } ∧
      (addHandleStore st h index).ltDesc h.id.shardKey =
        some { first_index := 1, last_index := index, last_seq_no := h.id.seq_no,
               last_lt := h.gen_lt, last_utime := h.gen_utime }) := by
  refine ⟨fun desc hdesc => ⟨fun heq => ?_, fun hlt => ?_, fun hgt => ?_⟩,
    fun hnone => ?_, fun index => ⟨?_, ?_⟩⟩
  · simp only [addHandle, hdesc, if_pos heq]
  · simp only [addHandle, hdesc]
    rw [if_neg (by omega), if_neg (by omega)]
  · simp only [addHandle, hdesc]
    rw [if_neg (by omega), if_pos (by omega)]
  · simp only [addHandle, hnone]
  · simp [addHandleStore, updMap]
  · simp [addHandleStore, updMap]

/-- Witness for C3: adding a handle to an empty index writes index 1, and the
written rows have the claimed contents. -/
theorem claim_C3_witness :
    addHandle ⟨fun _ => none, fun _ => none⟩ ⟨⟨0, 8, 5, 1, 2⟩, 77, 88⟩ =
      .ok (addHandleStore ⟨fun _ => none, fun _ => none⟩ ⟨⟨0, 8, 5, 1, 2⟩, 77, 88⟩ 1) ∧
    (addHandleStore ⟨fun _ => none, fun _ => none⟩ ⟨⟨0, 8, 5, 1, 2⟩, 77, 88⟩ 1).ltDesc
        (0, 8) =
      some { first_index := 1, last_index := 1, last_seq_no := 5,
             last_lt := 77, last_utime := 88 } :=
  ⟨(claim_C3_add_handle_cases ⟨fun _ => none, fun _ => none⟩
      ⟨⟨0, 8, 5, 1, 2⟩, 77, 88⟩).2.1 rfl,
   ((claim_C3_add_handle_cases ⟨fun _ => none, fun _ => none⟩
      ⟨⟨0, 8, 5, 1, 2⟩, 77, 88⟩).2.2 1).2⟩

/-- The gc loop passes over ids whose shard desc is absent or strictly behind,
only extending the delete batches. -/
theorem gcLoop_skips_passing_ids (st : BlockIndexState) :
    ∀ (pre ids : List BlockIdExt) (l : List (ShardKey × Nat)) (d : List ShardKey),
      (∀ x ∈ pre, gcPasses st x) →
      ∃ l' d', gcLoop st (pre ++ ids) l d = gcLoop st ids l' d' := by
  intro pre
  induction pre with
  | nil => exact fun ids l d _ => ⟨l, d, rfl⟩
  | cons x pre ih =>
    intro ids l d hp
    have hx := hp x (List.mem_cons_self x pre)
    have hrest : ∀ y ∈ pre, gcPasses st y := fun y hy => hp y (List.mem_cons_of_mem x hy)
    rcases hx with hnone | ⟨desc, hdesc, hlt⟩
    · simpa only [List.cons_append, gcLoop, hnone] using ih ids _ _ hrest
    · simp only [List.cons_append, gcLoop, hdesc]
      rw [if_neg (by omega), if_pos (by omega)]
      exact ih ids _ _ hrest

/-- C9: in `BlockIndexDb::gc`, once every id before it only batches deletions,
an id whose seq_no equals its shard's `last_seq_no` makes gc return `Ok(())`
with the database untouched (the batched deletions are dropped), while an id
with a strictly smaller seq_no makes gc fail with `AscendingOrderRequired`. -/
theorem claim_C9_gc_swallows_equal_seqno (st : BlockIndexState)
    (pre : List BlockIdExt) (id : BlockIdExt) (rest : List BlockIdExt)
    (hpre : ∀ x ∈ pre, gcPasses st x) :
    ∀ desc, st.ltDesc id.shardKey = some desc →
      (id.seq_no = desc.last_seq_no →
        gcBlockIndex st (pre ++ id :: rest) = .ok st) ∧
      (id.seq_no < desc.last_seq_no →
        gcBlockIndex st (pre ++ id :: rest) = .error .ascendingOrderRequired) := by
  intro desc hdesc
  obtain ⟨l', d', hloop⟩ := gcLoop_skips_passing_ids st pre (id :: rest) [] [] hpre
  constructor
  · intro heq
    simp only [gcBlockIndex, hloop, gcLoop, hdesc, if_pos heq]
  · intro hlt
    simp only [gcBlockIndex, hloop, gcLoop, hdesc]
    rw [if_neg (by omega), if_neg (by omega)]

/-- Witness for C9: after one passing id, an equal-seq_no id yields `Ok` with
the state unchanged, and a smaller one yields `AscendingOrderRequired`. -/
theorem claim_C9_witness :
    gcBlockIndex
        ⟨fun k => if k = (0, 1) then some ⟨1, 4, 10, 0, 0⟩ else none, fun _ => none⟩
        [⟨0, 2, 7, 0, 0⟩, ⟨0, 1, 10, 0, 0⟩] =
      .ok ⟨fun k => if k = (0, 1) then some ⟨1, 4, 10, 0, 0⟩ else none, fun _ => none⟩ ∧
    gcBlockIndex
        ⟨fun k => if k = (0, 1) then some ⟨1, 4, 10, 0, 0⟩ else none, fun _ => none⟩
        [⟨0, 2, 7, 0, 0⟩, ⟨0, 1, 9, 0, 0⟩] =
      .error .ascendingOrderRequired := by
  constructor
  · exact ((claim_C9_gc_swallows_equal_seqno
      ⟨fun k => if k = (0, 1) then some ⟨1, 4, 10, 0, 0⟩ else none, fun _ => none⟩
      [⟨0, 2, 7, 0, 0⟩] ⟨0, 1, 10, 0, 0⟩ []
      (by
        intro x hx
        simp only [List.mem_singleton] at hx
        subst hx
        exact Or.inl rfl)
      ⟨1, 4, 10, 0, 0⟩ rfl).1 rfl)
  · exact ((claim_C9_gc_swallows_equal_seqno
      ⟨fun k => if k = (0, 1) then some ⟨1, 4, 10, 0, 0⟩ else none, fun _ => none⟩
      [⟨0, 2, 7, 0, 0⟩] ⟨0, 1, 9, 0, 0⟩ []
      (by
        intro x hx
        simp only [List.mem_singleton] at hx
        subst hx
        exact Or.inl rfl)
      ⟨1, 4, 10, 0, 0⟩ rfl).2 (by decide))

/-- C2: per-step behaviour of `import_mc_blocks` on the ascending masterchain
id walk: ids strictly below the current last are skipped; an equal seq_no with
a different id fails with `MasterchainBlockIdMismatch` (while the same id is
skipped); a jump that is not exactly `last + 1` fails with
`BlocksSkippedInArchive`; at exactly `last + 1` the id becomes the new last,
skipped when its handle is already applied, else saved, applied and recorded. -/
theorem claim_C2_import_mc_blocks (eng : McImportEngine)
    (blocks : BlockIdExt → Option BlocksEntry) (id : BlockIdExt)
    (rest : List BlockIdExt) (last : BlockIdExt) :
    (id.seq_no < last.seq_no →
      importMcBlocks eng blocks (id :: rest) last =
        importMcBlocks eng blocks rest last) ∧
    (id.seq_no = last.seq_no → id ≠ last →
      importMcBlocks eng blocks (id :: rest) last =
        .error .masterchainBlockIdMismatch) ∧
    (id = last →
      importMcBlocks eng blocks (id :: rest) last =
        importMcBlocks eng blocks rest last) ∧
    (last.seq_no + 1 < id.seq_no →
      importMcBlocks eng blocks (id :: rest) last =
        .error .blocksSkippedInArchive) ∧
    (id.seq_no = last.seq_no + 1 →
      (eng.loadHandle id = some true →
        importMcBlocks eng blocks (id :: rest) last =
          importMcBlocks eng blocks rest id) ∧
      (eng.loadHandle id ≠ some true →
        ∀ data, ((blocks id).getD ⟨none, none⟩).getData = .ok data →
        eng.saveAndApply id = .ok () →
        ∀ l applied, importMcBlocks eng blocks rest id = .ok (l, applied) →
          importMcBlocks eng blocks (id :: rest) last = .ok (l, id :: applied))) := by
  refine ⟨fun hlt => ?_, fun heq hne => ?_, fun hid => ?_, fun hgt => ?_,
    fun hsucc => ⟨fun happlied => ?_, fun hnotapp data hdata hsave l applied hrec => ?_⟩⟩
  · simp only [importMcBlocks]
    rw [if_pos (Nat.le_of_lt hlt), if_neg (by rintro ⟨h1, -⟩; omega)]
  · simp only [importMcBlocks]
    rw [if_pos (Nat.le_of_eq heq), if_pos ⟨heq, fun hc => hne hc.symm⟩]
  · subst hid
    simp only [importMcBlocks]
    rw [if_pos (Nat.le_refl _), if_neg (by rintro ⟨-, h2⟩; exact h2 rfl)]
  · simp only [importMcBlocks]
    rw [if_neg (by omega), if_pos (by omega)]
  · simp only [importMcBlocks]
    rw [if_neg (by omega), if_neg (by omega), happlied]
  · simp only [importMcBlocks]
    rw [if_neg (by omega), if_neg (by omega)]
    rcases hload : eng.loadHandle id with - | b
    · simp only [hdata, hsave, hrec]
    · cases b
      · simp only [hdata, hsave, hrec]
      · exact absurd hload hnotapp

/-- Witness for C2: a block at exactly `last + 1` with data and a successful
apply becomes the new last and is recorded as applied. -/
theorem claim_C2_witness :
    importMcBlocks ⟨fun _ => none, fun _ => .ok ()⟩ (fun _ => some ⟨some 1, some 2⟩)
        [⟨-1, 0, 4, 9, 9⟩] ⟨-1, 0, 3, 8, 8⟩ =
      .ok (⟨-1, 0, 4, 9, 9⟩, [⟨-1, 0, 4, 9, 9⟩]) :=
  ((claim_C2_import_mc_blocks ⟨fun _ => none, fun _ => .ok ()⟩
      (fun _ => some ⟨some 1, some 2⟩) ⟨-1, 0, 4, 9, 9⟩ [] ⟨-1, 0, 3, 8, 8⟩).2.2.2.2
    rfl).2 (by decide) (1, 2) rfl rfl ⟨-1, 0, 4, 9, 9⟩ [] rfl

/-- The fold computing `latest` ignores a queue with no `Downloaded` entry. -/
theorem foldl_retryLatestStep_no_downloaded :
    ∀ (q : SyncQueue) (acc : Option Nat),
      (∀ p ∈ q, p.2.isDownloaded = false) → q.foldl retryLatestStep acc = acc := by
  intro q
  induction q with
  | nil => intro acc _; rfl
  | cons p rest ih =>
    intro acc hq
    obtain ⟨s, st⟩ := p
    have hp := hq (s, st) (List.mem_cons_self _ rest)
    have hstep : retryLatestStep acc (s, st) = acc := by
      cases st with
      | downloaded d => simp [ArchiveStatus.isDownloaded] at hp
      | downloading => rfl
      | notFound => rfl
    rw [List.foldl_cons, hstep]
    exact ih acc fun x hx => hq x (List.mem_cons_of_mem _ hx)

/-- Invariant of the `latest` fold: the result bounds every `Downloaded`
seq_no from above, and is either the seed or a `Downloaded` seq_no. -/
theorem foldl_retryLatestStep_spec :
    ∀ (q : SyncQueue) (acc : Option Nat),
      (∀ s d, (s, ArchiveStatus.downloaded d) ∈ q →
        ∃ l, q.foldl retryLatestStep acc = some l ∧ s ≤ l) ∧
      (q.foldl retryLatestStep acc = acc ∨
        ∃ l d, q.foldl retryLatestStep acc = some l ∧
          (l, ArchiveStatus.downloaded d) ∈ q) ∧
      (∀ a, acc = some a → ∃ l, q.foldl retryLatestStep acc = some l ∧ a ≤ l) := by
  intro q
  induction q with
  | nil =>
    intro acc
    exact ⟨fun s d hm => absurd hm (List.not_mem_nil _), Or.inl rfl,
      fun a ha => ⟨a, by subst ha; rfl, Nat.le_refl a⟩⟩
  | cons p rest ih =>
    intro acc
    obtain ⟨s, st⟩ := p
    cases st with
    | downloaded d0 =>
      obtain ⟨m, hm, hsm, ham, haccm⟩ :
          ∃ m, retryLatestStep acc (s, ArchiveStatus.downloaded d0) = some m ∧
            s ≤ m ∧ (m = s ∨ acc = some m) ∧ ∀ a, acc = some a → a ≤ m := by
        rcases acc with - | a
        · exact ⟨s, rfl, Nat.le_refl s, Or.inl rfl, fun a ha => by cases ha⟩
        · by_cases has : a ≥ s
          · refine ⟨a, ?_, has, Or.inr rfl, fun a₁ ha₁ => by injection ha₁ with h; omega⟩
            show (if a ≥ s then some a else some s) = some a
            rw [if_pos has]
          · refine ⟨s, ?_, Nat.le_refl s, Or.inl rfl,
              fun a₁ ha₁ => by injection ha₁ with h; omega⟩
            show (if a ≥ s then some a else some s) = some s
            rw [if_neg has]
      have hfold : ((s, ArchiveStatus.downloaded d0) :: rest).foldl retryLatestStep acc =
          rest.foldl retryLatestStep (some m) := by rw [List.foldl_cons, hm]
      obtain ⟨l, hl, hml⟩ := (ih (some m)).2.2 m rfl
      refine ⟨?_, ?_, ?_⟩
      · intro s₁ d₁ hmem
        rcases List.mem_cons.mp hmem with hhead | htail
        · obtain ⟨hs₁, -⟩ := Prod.mk.injEq .. ▸ hhead
          cases hhead
          exact ⟨l, by rw [hfold]; exact hl, Nat.le_trans hsm hml⟩
        · obtain ⟨l₁, hl₁, hsl₁⟩ := (ih (some m)).1 s₁ d₁ htail
          exact ⟨l₁, by rw [hfold]; exact hl₁, hsl₁⟩
      · rcases (ih (some m)).2.1 with hkeep | ⟨l₁, d₁, hl₁, hmem₁⟩
        · rcases ham with hms | hacc
          · exact Or.inr ⟨m, d0, by rw [hfold, hkeep], by rw [hms]; exact List.mem_cons_self _ _⟩
          · exact Or.inl (by rw [hfold, hkeep, hacc])
        · exact Or.inr ⟨l₁, d₁, by rw [hfold]; exact hl₁, List.mem_cons_of_mem _ hmem₁⟩
      · intro a ha
        exact ⟨l, by rw [hfold]; exact hl, Nat.le_trans (haccm a ha) hml⟩
    | downloading =>
      have hfold : ((s, ArchiveStatus.downloading) :: rest).foldl retryLatestStep acc =
          rest.foldl retryLatestStep acc := rfl
      refine ⟨?_, ?_, ?_⟩
      · intro s₁ d₁ hmem
        rcases List.mem_cons.mp hmem with hhead | htail
        · cases hhead
        · obtain ⟨l₁, hl₁, hsl₁⟩ := (ih acc).1 s₁ d₁ htail
          exact ⟨l₁, by rw [hfold]; exact hl₁, hsl₁⟩
      · rcases (ih acc).2.1 with hkeep | ⟨l₁, d₁, hl₁, hmem₁⟩
        · exact Or.inl (by rw [hfold, hkeep])
        · exact Or.inr ⟨l₁, d₁, by rw [hfold]; exact hl₁, List.mem_cons_of_mem _ hmem₁⟩
      · intro a ha
        obtain ⟨l₁, hl₁, hal₁⟩ := (ih acc).2.2 a ha
        exact ⟨l₁, by rw [hfold]; exact hl₁, hal₁⟩
    | notFound =>
      have hfold : ((s, ArchiveStatus.notFound) :: rest).foldl retryLatestStep acc =
          rest.foldl retryLatestStep acc := rfl
      refine ⟨?_, ?_, ?_⟩
      · intro s₁ d₁ hmem
        rcases List.mem_cons.mp hmem with hhead | htail
        · cases hhead
        · obtain ⟨l₁, hl₁, hsl₁⟩ := (ih acc).1 s₁ d₁ htail
          exact ⟨l₁, by rw [hfold]; exact hl₁, hsl₁⟩
      · rcases (ih acc).2.1 with hkeep | ⟨l₁, d₁, hl₁, hmem₁⟩
        · exact Or.inl (by rw [hfold, hkeep])
        · exact Or.inr ⟨l₁, d₁, by rw [hfold]; exact hl₁, List.mem_cons_of_mem _ hmem₁⟩
      · intro a ha
        obtain ⟨l₁, hl₁, hal₁⟩ := (ih acc).2.2 a ha
        exact ⟨l₁, by rw [hfold]; exact hl₁, hal₁⟩

/-- The re-issue loop rewrites exactly the `NotFound` entries at or below
`latest` and reports their seq_nos. -/
theorem reissueNotFoundUpTo_eq (latest : Nat) :
    ∀ q : SyncQueue,
      reissueNotFoundUpTo latest q =
        (q.map fun p =>
           if p.1 ≤ latest ∧ p.2 = ArchiveStatus.notFound
           then (p.1, ArchiveStatus.downloading) else p,
         (q.filter fun p =>
            decide (p.1 ≤ latest) && decide (p.2 = ArchiveStatus.notFound)).map
           Prod.fst) := by
  intro q
  induction q with
  | nil => rfl
  | cons p rest ih =>
    obtain ⟨s, st⟩ := p
    simp only [reissueNotFoundUpTo, ih, List.map_cons, List.filter_cons]
    by_cases hls : latest < s
    · rw [if_pos hls]
      have h1 : ¬(s ≤ latest ∧ st = ArchiveStatus.notFound) := by rintro ⟨h, -⟩; omega
      have h2 : decide (s ≤ latest) = false := decide_eq_false (by omega)
      rw [if_neg h1, h2, Bool.false_and]
      simp
    · have hsl : s ≤ latest := by omega
      rw [if_neg hls]
      cases st with
      | notFound => simp [hsl]
      | downloading => simp [hsl]
      | downloaded d => simp [hsl]

/-- On an all-`NotFound` queue the earliest scan returns the running minimum. -/
theorem earliestNotFoundOnly_all_notFound :
    ∀ q : SyncQueue, (∀ p ∈ q, p.2 = ArchiveStatus.notFound) →
      ∀ e₀ : Nat, ∃ m, earliestNotFoundOnly q (some e₀) = some (some m) ∧ m ≤ e₀ ∧
        (m = e₀ ∨ (m, ArchiveStatus.notFound) ∈ q) ∧ ∀ p ∈ q, m ≤ p.1 := by
  intro q
  induction q with
  | nil =>
    exact fun _ e₀ => ⟨e₀, rfl, Nat.le_refl e₀, Or.inl rfl,
      fun p hp => absurd hp (List.not_mem_nil p)⟩
  | cons p rest ih =>
    intro hq e₀
    obtain ⟨s, st⟩ := p
    have hst : st = ArchiveStatus.notFound := hq (s, st) (List.mem_cons_self _ _)
    subst hst
    have hrest : ∀ p ∈ rest, p.2 = ArchiveStatus.notFound :=
      fun p hp => hq p (List.mem_cons_of_mem _ hp)
    by_cases hes : e₀ ≤ s
    · obtain ⟨m, hm, hme, hmem, hmin⟩ := ih hrest e₀
      refine ⟨m, ?_, hme, ?_, ?_⟩
      · show (if e₀ ≤ s then earliestNotFoundOnly rest (some e₀)
            else earliestNotFoundOnly rest (some s)) = some (some m)
        rw [if_pos hes]; exact hm
      · rcases hmem with h | h
        · exact Or.inl h
        · exact Or.inr (List.mem_cons_of_mem _ h)
      · intro p hp
        rcases List.mem_cons.mp hp with hh | ht
        · rw [hh]; exact Nat.le_trans hme hes
        · exact hmin p ht
    · obtain ⟨m, hm, hme, hmem, hmin⟩ := ih hrest s
      refine ⟨m, ?_, by omega, ?_, ?_⟩
      · show (if e₀ ≤ s then earliestNotFoundOnly rest (some e₀)
            else earliestNotFoundOnly rest (some s)) = some (some m)
        rw [if_neg hes]; exact hm
      · rcases hmem with h | h
        · exact Or.inr (by rw [h]; exact List.mem_cons_self _ _)
        · exact Or.inr (List.mem_cons_of_mem _ h)
      · intro p hp
        rcases List.mem_cons.mp hp with hh | ht
        · rw [hh]; exact hme
        · exact hmin p ht

/-- The earliest scan aborts as soon as the queue holds a non-`NotFound`
entry, issuing nothing. -/
theorem earliestNotFoundOnly_aborts :
    ∀ q : SyncQueue, (∃ p ∈ q, p.2 ≠ ArchiveStatus.notFound) →
      ∀ acc, earliestNotFoundOnly q acc = none := by
  intro q
  induction q with
  | nil => rintro ⟨p, hp, -⟩ acc; exact absurd hp (List.not_mem_nil p)
  | cons p rest ih =>
    rintro ⟨w, hw, hwst⟩ acc
    obtain ⟨s, st⟩ := p
    cases st with
    | notFound =>
      have hwrest : w ∈ rest := by
        rcases List.mem_cons.mp hw with hh | ht
        · exfalso; rw [hh] at hwst; exact hwst rfl
        · exact ht
      have hr := ih ⟨w, hwrest, hwst⟩
      rcases acc with - | e
      · exact hr (some s)
      · show (if e ≤ s then earliestNotFoundOnly rest (some e)
            else earliestNotFoundOnly rest (some s)) = none
        by_cases hes : e ≤ s
        · rw [if_pos hes]; exact hr (some e)
        · rw [if_neg hes]; exact hr (some s)
    | downloading => rfl
    | downloaded d => rfl

/-- C7: behaviour of `retry_downloading_not_found_archives` on the queue.  When
some entry is `Downloaded`, `latest` is the largest such seq_no and every
`NotFound` entry at or below it is flipped to `Downloading` and re-requested.
When nothing is `Downloaded`, the engine is not synced and the whole queue is
`NotFound`, only the smallest seq_no is re-requested.  When nothing is
`Downloaded` but some entry has another status, nothing is re-issued. -/
theorem claim_C7_retry_not_found_archives (queue : SyncQueue) :
    ((∃ p ∈ queue, p.2.isDownloaded = true) →
      ∃ latest, retryLatest queue = some latest) ∧
    (∀ latest, retryLatest queue = some latest →
      (∃ d, (latest, ArchiveStatus.downloaded d) ∈ queue) ∧
      (∀ s d, (s, ArchiveStatus.downloaded d) ∈ queue → s ≤ latest) ∧
      ∀ isSynced, retryDownloadingNotFoundArchives isSynced queue =
        (queue.map fun p =>
           if p.1 ≤ latest ∧ p.2 = ArchiveStatus.notFound
           then (p.1, ArchiveStatus.downloading) else p,
         (queue.filter fun p =>
            decide (p.1 ≤ latest) && decide (p.2 = ArchiveStatus.notFound)).map
           Prod.fst)) ∧
    ((∀ p ∈ queue, p.2 = ArchiveStatus.notFound) → queue ≠ [] →
      ∃ m, (m, ArchiveStatus.notFound) ∈ queue ∧ (∀ p ∈ queue, m ≤ p.1) ∧
        retryDownloadingNotFoundArchives false queue =
          (queue.map fun p => if p.1 = m then (m, ArchiveStatus.downloading) else p,
           [m])) ∧
    ((∀ p ∈ queue, p.2.isDownloaded = false) →
      (∃ p ∈ queue, p.2 ≠ ArchiveStatus.notFound) →
      ∀ isSynced, retryDownloadingNotFoundArchives isSynced queue = (queue, [])) := by
  refine ⟨?_, ?_, ?_, ?_⟩
  · rintro ⟨⟨s, st⟩, hmem, hdl⟩
    cases st with
    | downloaded d =>
      obtain ⟨l, hl, -⟩ := (foldl_retryLatestStep_spec queue none).1 s d hmem
      exact ⟨l, hl⟩
    | downloading => simp [ArchiveStatus.isDownloaded] at hdl
    | notFound => simp [ArchiveStatus.isDownloaded] at hdl
  · intro latest hlatest
    have hspec := foldl_retryLatestStep_spec queue none
    refine ⟨?_, ?_, ?_⟩
    · rcases hspec.2.1 with hkeep | ⟨l, d, hl, hmem⟩
      · rw [retryLatest] at hlatest; rw [hkeep] at hlatest; cases hlatest
      · rw [retryLatest] at hlatest; rw [hl] at hlatest
        injection hlatest with h
        exact ⟨d, by rw [← h]; exact hmem⟩
    · intro s d hmem
      obtain ⟨l, hl, hsl⟩ := hspec.1 s d hmem
      rw [retryLatest] at hlatest; rw [hl] at hlatest
      injection hlatest with h
      omega
    · intro isSynced
      rw [retryDownloadingNotFoundArchives, hlatest]
      exact reissueNotFoundUpTo_eq latest queue
  · intro hall hne
    have hnone : retryLatest queue = none :=
      foldl_retryLatestStep_no_downloaded queue none
        (fun p hp => by rw [hall p hp]; rfl)
    rcases hq : queue with - | ⟨⟨s₀, st₀⟩, rest⟩
    · exact absurd hq hne
    · subst hq
      have hst₀ : st₀ = ArchiveStatus.notFound := hall (s₀, st₀) (List.mem_cons_self _ _)
      subst hst₀
      have hrest : ∀ p ∈ rest, p.2 = ArchiveStatus.notFound :=
        fun p hp => hall p (List.mem_cons_of_mem _ hp)
      obtain ⟨m, hm, hme, hmem, hmin⟩ := earliestNotFoundOnly_all_notFound rest hrest s₀
      have hscan : earliestNotFoundOnly
          ((s₀, ArchiveStatus.notFound) :: rest) none = some (some m) := hm
      refine ⟨m, ?_, ?_, ?_⟩
      · rcases hmem with h | h
        · exact h ▸ List.mem_cons_self _ _
        · exact List.mem_cons_of_mem _ h
      · intro p hp
        rcases List.mem_cons.mp hp with hh | ht
        · rw [hh]; exact hme
        · exact hmin p ht
      · rw [retryDownloadingNotFoundArchives, hnone]
        simp only [Bool.false_eq_true, if_false, hscan]
  · intro hnodl hother isSynced
    have hnone : retryLatest queue = none :=
      foldl_retryLatestStep_no_downloaded queue none hnodl
    rw [retryDownloadingNotFoundArchives, hnone]
    cases isSynced with
    | true => rfl
    | false =>
      rw [earliestNotFoundOnly_aborts queue hother none]
      rfl

/-- Witness for C7: a `Downloaded` at 301 re-issues the `NotFound` at 201; an
all-`NotFound` queue re-issues only its smallest seq_no; a queue with a
`Downloading` entry and no `Downloaded` re-issues nothing. -/
theorem claim_C7_witness :
    retryDownloadingNotFoundArchives false
        [(201, ArchiveStatus.notFound), (301, ArchiveStatus.downloaded [7])] =
      ([(201, ArchiveStatus.downloading), (301, ArchiveStatus.downloaded [7])], [201]) ∧
    retryDownloadingNotFoundArchives false
        [(5, ArchiveStatus.notFound), (3, ArchiveStatus.notFound)] =
      ([(5, ArchiveStatus.notFound), (3, ArchiveStatus.downloading)], [3]) ∧
    retryDownloadingNotFoundArchives false
        [(4, ArchiveStatus.downloading), (6, ArchiveStatus.notFound)] =
      ([(4, ArchiveStatus.downloading), (6, ArchiveStatus.notFound)], []) := by
  refine ⟨?_, ?_, ?_⟩
  · exact Eq.trans
      (((claim_C7_retry_not_found_archives
          [(201, ArchiveStatus.notFound), (301, ArchiveStatus.downloaded [7])]).2.1 301
        (by decide)).2.2 false)
      (by decide)
  · obtain ⟨m, hmem, hmin, heq⟩ :=
      (claim_C7_retry_not_found_archives
        [(5, ArchiveStatus.notFound), (3, ArchiveStatus.notFound)]).2.2.1
        (by decide) (by decide)
    have hm : m = 3 := by
      have h3 := hmin (3, ArchiveStatus.notFound) (by decide)
      have : m = 5 ∨ m = 3 := by
        rcases List.mem_cons.mp hmem with hh | ht
        · exact Or.inl (congrArg Prod.fst hh)
        · rcases List.mem_cons.mp ht with hh' | ht'
          · exact Or.inr (congrArg Prod.fst hh')
          · exact absurd ht' (List.not_mem_nil _)
      omega
    subst hm
    exact Eq.trans heq (by decide)
  · exact (claim_C7_retry_not_found_archives
      [(4, ArchiveStatus.downloading), (6, ArchiveStatus.notFound)]).2.2.2
      (by decide) ⟨(4, ArchiveStatus.downloading), by decide, by decide⟩ false

/-- With a total `read_cell`, the cell loop returns `Ok` and advances
`cells_read` by at most the fuel. -/
theorem processCells_total {σ ε : Type} (ops : ReaderOps σ ε)
    (hcell : ∀ s, ∃ v, ops.readCell s = .ok v) :
    ∀ (fuel : Nat) (r : σ) (n : Nat) (out : List Nat) (chunk : Nat),
      ∃ r' n' out' chunk',
        processCells ops fuel r n out chunk = .ok (r', n', out', chunk') ∧
        n ≤ n' ∧ n' ≤ n + fuel := by
  intro fuel
  induction fuel with
  | zero => exact fun r n out chunk => ⟨r, n, out, chunk, rfl, Nat.le_refl n, by omega⟩
  | succ f ih =>
    intro r n out chunk
    obtain ⟨⟨opt, r'⟩, hv⟩ := hcell r
    cases opt with
    | none =>
      exact ⟨r', n, out, chunk, by simp only [processCells, hv], Nat.le_refl n, by omega⟩
    | some record =>
      obtain ⟨r₂, n₂, out₂, chunk₂, heqn, hle1, hle2⟩ :=
        ih r' (n + 1) (out ++ record ++ [record.length % 256]) (chunk + record.length + 1)
      exact ⟨r₂, n₂, out₂, chunk₂, by simp only [processCells, hv, heqn], by omega, by omega⟩

/-- Completion analysis of the post-header part of `process_packet`: the call
succeeds and returns `true` exactly when all cells and the optional CRC have
been consumed. -/
theorem processPacketCells_completion {σ ε : Type} (ops : ReaderOps σ ε)
    (st : ReplaceTxState σ) (h : BocHeader)
    (hcell : ∀ s, ∃ v, ops.readCell s = .ok v)
    (hcrcop : ∀ s, ∃ v, ops.readCrc s = .ok v)
    (hcr : st.crcRead = false) (hle : st.cellsRead ≤ h.cell_count) :
    ∃ b st' out, processPacketCells ops st h = .ok (b, st', out) ∧
      st'.header = st.header ∧
      (b = true ↔ st'.cellsRead = h.cell_count ∧
        (h.has_crc = true → st'.crcRead = true)) := by
  obtain ⟨r', n', out', chunk', heqc, hn1, hn2⟩ :=
    processCells_total ops hcell (h.cell_count - st.cellsRead) st.reader st.cellsRead [] 0
  have hcount : n' ≤ h.cell_count := by omega
  by_cases hlt : n' < h.cell_count
  · refine ⟨false, { st with reader := r', cellsRead := n' },
      if chunk' > 0 then out' ++ u32le chunk' else out', ?_, rfl, ?_⟩
    · simp only [processPacketCells, heqc, if_pos hlt]
    · constructor
      · intro hb; exact Bool.noConfusion hb
      · rintro ⟨hc, -⟩
        have hc' : n' = h.cell_count := hc
        exact absurd hc' (by omega)
  · have hfull : n' = h.cell_count := by omega
    rcases hflag : h.has_crc with - | -
    · refine ⟨true, { st with reader := r', cellsRead := n' },
        if chunk' > 0 then out' ++ u32le chunk' else out', ?_, rfl, ?_⟩
      · simp only [processPacketCells, heqc, if_neg hlt, hflag, Bool.false_eq_true, if_false]
      · constructor
        · intro _
          exact ⟨hfull, fun hcontra => Bool.noConfusion hcontra⟩
        · intro _; rfl
    · obtain ⟨⟨optc, r₂⟩, hv⟩ := hcrcop r'
      cases optc with
      | none =>
        refine ⟨false, { st with reader := r₂, cellsRead := n' },
          if chunk' > 0 then out' ++ u32le chunk' else out', ?_, rfl, ?_⟩
        · simp only [processPacketCells, heqc, if_neg hlt, hflag, if_true, hv]
        · constructor
          · intro hb; exact Bool.noConfusion hb
          · rintro ⟨-, himp⟩
            have hcrval : st.crcRead = true := himp rfl
            rw [hcr] at hcrval
            exact hcrval
      | some u =>
        refine ⟨true, { st with reader := r₂, cellsRead := n', crcRead := true },
          if chunk' > 0 then out' ++ u32le chunk' else out', ?_, rfl, ?_⟩
        · simp only [processPacketCells, heqc, if_neg hlt, hflag, if_true, hv]
        · constructor
          · intro _
            exact ⟨hfull, fun _ => rfl⟩
          · intro _; rfl

/-- C1: a call to `process_packet` (with a reader whose reads do not fail)
returns `Ok`; the result is `true` exactly when the cumulative number of cell
records read equals the header `cell_count` and, when `has_crc`, the trailing
CRC has been consumed — and `Ok(false)` in every other case (header not yet
decodable, cells remaining, CRC bytes missing). -/
theorem claim_C1_process_packet_completion {σ ε : Type} (ops : ReaderOps σ ε)
    (st : ReplaceTxState σ) (htotal : ops.total) (hwf : st.wf) :
    ∃ b st' out, processPacket ops st = .ok (b, st', out) ∧
      (b = true ↔ ∃ h, st'.header = some h ∧ st'.cellsRead = h.cell_count ∧
        (h.has_crc = true → st'.crcRead = true)) := by
  rcases hhd : st.header with - | h
  · obtain ⟨⟨opt, r'⟩, hv⟩ := htotal.1 st.reader
    cases opt with
    | none =>
      refine ⟨false, { st with reader := r' }, [], ?_, ?_⟩
      · simp only [processPacket, hhd, hv]
      · constructor
        · intro hb; exact Bool.noConfusion hb
        · rintro ⟨h, hsome, -⟩
          have hcontra : st.header = some h := hsome
          rw [hhd] at hcontra
          exact Option.noConfusion hcontra
    | some h =>
      obtain ⟨b, st', out, heqp, hhd', hiff⟩ :=
        processPacketCells_completion ops { st with reader := r', header := some h } h
          htotal.2.1 htotal.2.2 hwf.2.2 (by
            have h0 : st.cellsRead = 0 := hwf.1 hhd
            show st.cellsRead ≤ h.cell_count
            omega)
      have hh2 : st'.header = some h := hhd'
      refine ⟨b, st', out, ?_, ?_⟩
      · simp only [processPacket, hhd, hv]
        exact heqp
      · rw [hiff]
        constructor
        · rintro ⟨hc, hcrok⟩
          exact ⟨h, hh2, hc, hcrok⟩
        · rintro ⟨h₂, hsome, hc, hcrok⟩
          rw [hh2] at hsome
          injection hsome with he
          subst he
          exact ⟨hc, hcrok⟩
  · obtain ⟨b, st', out, heqp, hhd', hiff⟩ :=
      processPacketCells_completion ops st h htotal.2.1 htotal.2.2 hwf.2.2
        (hwf.2.1 h hhd)
    have hh2 : st'.header = some h := by rw [hhd', hhd]
    refine ⟨b, st', out, ?_, ?_⟩
    · simp only [processPacket, hhd]
      exact heqp
    · rw [hiff]
      constructor
      · rintro ⟨hc, hcrok⟩
        exact ⟨h, hh2, hc, hcrok⟩
      · rintro ⟨h₂, hsome, hc, hcrok⟩
        rw [hh2] at hsome
        injection hsome with he
        subst he
        exact ⟨hc, hcrok⟩

/-- Witness for C1: a reader with no bytes yet (header undecodable) yields
`Ok(false)`. -/
theorem claim_C1_witness :
    ∃ b st' out,
      processPacket (σ := Unit) (ε := Unit)
          ⟨fun s => .ok (none, s), fun s => .ok (none, s), fun s => .ok (none, s)⟩
          ⟨(), none, 0, false⟩ = .ok (b, st', out) ∧
      (b = true ↔ ∃ h, st'.header = some h ∧ st'.cellsRead = h.cell_count ∧
        (h.has_crc = true → st'.crcRead = true)) :=
  claim_C1_process_packet_completion
    ⟨fun s => .ok (none, s), fun s => .ok (none, s), fun s => .ok (none, s)⟩
    ⟨(), none, 0, false⟩
    ⟨fun s => ⟨(none, s), rfl⟩, fun s => ⟨(none, s), rfl⟩, fun s => ⟨(none, s), rfl⟩⟩
    ⟨fun _ => rfl, fun h hh => by exact absurd hh (by simp), rfl⟩

/-- The cell loop appends exactly a chunk body: each record read, immediately
followed by its length byte; the chunk counter tracks the appended length. -/
theorem processCells_append {σ ε : Type} (ops : ReaderOps σ ε)
    (hrec : ∀ s record s', ops.readCell s = .ok (some record, s') → record.length ≤ 255) :
    ∀ (fuel : Nat) (r : σ) (n : Nat) (out : List Nat) (chunk : Nat)
      (r' : σ) (n' : Nat) (out' : List Nat) (chunk' : Nat),
      processCells ops fuel r n out chunk = .ok (r', n', out', chunk') →
      ∃ records, out' = out ++ chunkBody records ∧
        chunk' = chunk + (chunkBody records).length ∧
        n' = n + records.length ∧
        ∀ record ∈ records, record.length ≤ 255 := by
  intro fuel
  induction fuel with
  | zero =>
    intro r n out chunk r' n' out' chunk' heqc
    simp only [processCells, Except.ok.injEq, Prod.mk.injEq] at heqc
    obtain ⟨-, rfl, rfl, rfl⟩ := heqc
    exact ⟨[], by simp [chunkBody], by simp [chunkBody], by simp,
      fun record hr => absurd hr (List.not_mem_nil _)⟩
  | succ f ih =>
    intro r n out chunk r' n' out' chunk' heqc
    rcases hv : ops.readCell r with e | ⟨opt, r₁⟩
    · rw [processCells, hv] at heqc
      exact Except.noConfusion heqc
    · cases opt with
      | none =>
        rw [processCells, hv] at heqc
        simp only [Except.ok.injEq, Prod.mk.injEq] at heqc
        obtain ⟨-, rfl, rfl, rfl⟩ := heqc
        exact ⟨[], by simp [chunkBody], by simp [chunkBody], by simp,
          fun record hr => absurd hr (List.not_mem_nil _)⟩
      | some record =>
        rw [processCells, hv] at heqc
        obtain ⟨records₀, hout, hchunk, hn, hbound⟩ :=
          ih r₁ (n + 1) (out ++ record ++ [record.length % 256])
            (chunk + record.length + 1) r' n' out' chunk' heqc
        have hbodylen : (chunkBody (record :: records₀)).length =
            record.length + 1 + (chunkBody records₀).length := by
          simp [chunkBody, recordWithLen]
          omega
        refine ⟨record :: records₀, ?_, ?_, ?_, ?_⟩
        · rw [hout]
          simp [chunkBody, recordWithLen, List.append_assoc]
        · rw [hchunk, hbodylen]
          omega
        · rw [hn]
          simp [List.length_cons]
          omega
        · intro x hx
          rcases List.mem_cons.mp hx with hh | ht
          · rw [hh]; exact hrec r record r₁ hv
          · exact hbound x ht

/-- The post-header part of `process_packet` appends exactly one encoded
chunk: the records, each followed by its length byte, then the `u32`
little-endian chunk size when at least one record was produced. -/
theorem processPacketCells_layout {σ ε : Type} (ops : ReaderOps σ ε)
    (hrec : ∀ s record s', ops.readCell s = .ok (some record, s') → record.length ≤ 255)
    (st : ReplaceTxState σ) (h : BocHeader) (b : Bool) (st' : ReplaceTxState σ)
    (out : List Nat) (heqp : processPacketCells ops st h = .ok (b, st', out)) :
    ∃ records, out = chunkFile records ∧
      st'.cellsRead = st.cellsRead + records.length ∧
      ∀ record ∈ records, record.length ≤ 255 := by
  rcases hpc : processCells ops (h.cell_count - st.cellsRead) st.reader st.cellsRead [] 0
    with e | ⟨r', n', out₀, chunk₀⟩
  · rw [processPacketCells, hpc] at heqp
    exact Except.noConfusion heqp
  · obtain ⟨records, hout, hchunk, hn, hbound⟩ :=
      processCells_append ops hrec _ _ _ _ _ _ _ _ _ hpc
    rw [List.nil_append] at hout
    subst hout
    have hfile : (if chunk₀ > 0 then chunkBody records ++ u32le chunk₀ else chunkBody records) =
        chunkFile records := by
      by_cases hb0 : chunkBody records = []
      · rw [hb0] at hchunk
        simp only [List.length_nil, Nat.add_zero] at hchunk
        subst hchunk
        simp [chunkFile, hb0]
      · have hpos : 0 < chunk₀ := by
          rw [hchunk]
          have := List.length_pos.mpr hb0
          omega
        rw [if_pos hpos, chunkFile, if_neg hb0, hchunk]
        simp
    rw [processPacketCells, hpc] at heqp
    simp only at heqp
    by_cases hlt : n' < h.cell_count
    · rw [if_pos hlt] at heqp
      simp only [Except.ok.injEq, Prod.mk.injEq] at heqp
      obtain ⟨-, rfl, rfl⟩ := heqp
      exact ⟨records, hfile, hn, hbound⟩
    · rw [if_neg hlt] at heqp
      rcases hflag : h.has_crc with - | -
      · rw [hflag] at heqp
        simp only [Bool.false_eq_true, if_false, Except.ok.injEq, Prod.mk.injEq] at heqp
        obtain ⟨-, rfl, rfl⟩ := heqp
        exact ⟨records, hfile, hn, hbound⟩
      · rw [hflag] at heqp
        simp only [if_true] at heqp
        rcases hcv : ops.readCrc r' with e | ⟨optc, r₂⟩
        · rw [hcv] at heqp
          exact Except.noConfusion heqp
        · rw [hcv] at heqp
          cases optc with
          | none =>
            simp only [Except.ok.injEq, Prod.mk.injEq] at heqp
            obtain ⟨-, rfl, rfl⟩ := heqp
            exact ⟨records, hfile, hn, hbound⟩
          | some u =>
            simp only [Except.ok.injEq, Prod.mk.injEq] at heqp
            obtain ⟨-, rfl, rfl⟩ := heqp
            exact ⟨records, hfile, hn, hbound⟩

/-- Unfolding of one peel step on a non-empty chunk. -/
theorem peelRecords_cons_eq (fuel : Nat) (chunk : List Nat) (hne : chunk ≠ []) :
    peelRecords (fuel + 1) chunk =
      if chunk.length < (chunk.getLast?).getD 0 + 1 then none
      else
        (peelRecords fuel (chunk.take (chunk.length - ((chunk.getLast?).getD 0 + 1)))).map
          fun records =>
            ((chunk.drop (chunk.length - ((chunk.getLast?).getD 0 + 1))).take
              ((chunk.getLast?).getD 0)) :: records := by
  obtain ⟨c, cs, rfl⟩ := List.exists_cons_of_ne_nil hne
  rfl

/-- Peeling a well-formed chunk body from the tail recovers the records in
reverse order (children-last order, as `finalize` consumes them). -/
theorem peelRecords_chunkBody :
    ∀ records : List (List Nat), (∀ record ∈ records, record.length ≤ 255) →
      ∀ fuel, (chunkBody records).length ≤ fuel →
        peelRecords fuel (chunkBody records) = some records.reverse := by
  intro records
  induction records using List.reverseRecOn with
  | nil => intro _ fuel _; cases fuel <;> rfl
  | append_singleton init last ih =>
    intro hbound fuel hfuel
    have hlast : last.length ≤ 255 := hbound last (by simp)
    have hinit : ∀ record ∈ init, record.length ≤ 255 :=
      fun record hr => hbound record (by simp [hr])
    have hmod : last.length % 256 = last.length := Nat.mod_eq_of_lt (by omega)
    have hbodyeq : chunkBody (init ++ [last]) =
        chunkBody init ++ (last ++ [last.length]) := by
      simp [chunkBody, recordWithLen, hmod]
    have hlen : (chunkBody (init ++ [last])).length =
        (chunkBody init).length + last.length + 1 := by
      rw [hbodyeq]
      simp only [List.length_append, List.length_cons, List.length_nil]
      omega
    have hne : chunkBody (init ++ [last]) ≠ [] := by
      intro hcon
      rw [hcon] at hlen
      simp at hlen
    rcases fuel with - | f
    · exact absurd hfuel (by omega)
    · rw [peelRecords_cons_eq f _ hne]
      have hgl : (chunkBody (init ++ [last])).getLast? = some last.length := by
        rw [hbodyeq,
          show chunkBody init ++ (last ++ [last.length]) =
            (chunkBody init ++ last) ++ [last.length] by simp [List.append_assoc]]
        exact List.getLast?_concat _
      rw [hgl]
      simp only [Option.getD_some]
      have hcond : ¬((chunkBody (init ++ [last])).length < last.length + 1) := by omega
      rw [if_neg hcond]
      have hidx : (chunkBody (init ++ [last])).length - (last.length + 1) =
          (chunkBody init).length := by omega
      rw [hidx]
      have htake : (chunkBody (init ++ [last])).take (chunkBody init).length =
          chunkBody init := by
        rw [hbodyeq]
        exact List.take_left _ _
      have hdrop : ((chunkBody (init ++ [last])).drop (chunkBody init).length).take
          last.length = last := by
        rw [hbodyeq, List.drop_left]
        exact List.take_left _ _
      rw [htake, hdrop, ih hinit f (by omega)]
      simp

/-- `u32` little-endian round trip. -/
theorem leU32_u32le (n : Nat) (h : n < 4294967296) : leU32 (u32le n) = n := by
  simp only [u32le, leU32]
  omega

/-- One backward-pass step over a file ending in an encoded chunk: the
trailing `u32` recovers the chunk, and the prefix is left for the next step. -/
theorem peelTailChunk_append (prefixBytes body : List Nat)
    (hlt : body.length < 4294967296) :
    peelTailChunk ((prefixBytes ++ body) ++ u32le body.length) =
      (peelRecords body.length body).map fun records => (records, prefixBytes) := by
  have hlen4 : (u32le body.length).length = 4 := rfl
  have hflen : ((prefixBytes ++ body) ++ u32le body.length).length =
      prefixBytes.length + body.length + 4 := by
    simp [u32le]
    omega
  rw [peelTailChunk]
  rw [if_neg (by omega)]
  have hidx4 : ((prefixBytes ++ body) ++ u32le body.length).length - 4 =
      (prefixBytes ++ body).length := by
    simp [u32le]
    omega
  rw [hidx4, List.drop_left, List.take_left, leU32_u32le _ hlt]
  have hablen : (prefixBytes ++ body).length = prefixBytes.length + body.length := by simp
  rw [if_neg (by omega)]
  have hidxb : (prefixBytes ++ body).length - body.length = prefixBytes.length := by
    omega
  rw [hidxb, List.drop_left, List.take_left]

/-- C8: spill-file layout.  (a) Every successful `process_packet` appends
exactly one encoded chunk: each cell record immediately followed by the single
byte holding its length, then — when any record was produced — the `u32`
little-endian chunk byte-length after the chunk.  (b) The backward pass of
`finalize` peels such a chunk and its records back off the tail of the file. -/
theorem claim_C8_spill_chunk_layout {σ ε : Type} (ops : ReaderOps σ ε)
    (hrec : ∀ s record s', ops.readCell s = .ok (some record, s') → record.length ≤ 255) :
    (∀ st b st' out, processPacket ops st = .ok (b, st', out) →
      ∃ records, out = chunkFile records ∧
        st'.cellsRead = st.cellsRead + records.length ∧
        ∀ record ∈ records, record.length ≤ 255) ∧
    (∀ records tail, records ≠ [] →
      (∀ record ∈ records, record.length ≤ 255) →
      (chunkBody records).length < 4294967296 →
      peelTailChunk (tail ++ chunkFile records) = some (records.reverse, tail)) := by
  constructor
  · intro st b st' out heqp
    rcases hhd : st.header with - | h
    · rw [processPacket, hhd] at heqp
      rcases hv : ops.readHeader st.reader with e | ⟨opt, r'⟩
      · rw [hv] at heqp
        exact Except.noConfusion heqp
      · rw [hv] at heqp
        cases opt with
        | none =>
          simp only [Except.ok.injEq, Prod.mk.injEq] at heqp
          obtain ⟨-, rfl, rfl⟩ := heqp
          exact ⟨[], rfl, by simp [chunkBody], fun record hr => absurd hr (List.not_mem_nil _)⟩
        | some h =>
          obtain ⟨records, hout, hcells, hbound⟩ :=
            processPacketCells_layout ops hrec _ h b st' out heqp
          exact ⟨records, hout, hcells, hbound⟩
    · rw [processPacket, hhd] at heqp
      obtain ⟨records, hout, hcells, hbound⟩ :=
        processPacketCells_layout ops hrec st h b st' out heqp
      exact ⟨records, hout, hcells, hbound⟩
  · intro records tail hne hbound hlt
    have hbody : chunkBody records ≠ [] := by
      rcases records with - | ⟨record, rest⟩
      · exact absurd rfl hne
      · intro hcon
        have hlc := congrArg List.length hcon
        simp [chunkBody, recordWithLen] at hlc
    have hcf : chunkFile records =
        chunkBody records ++ u32le (chunkBody records).length := by
      rw [chunkFile, if_neg hbody]
    rw [hcf,
      show tail ++ (chunkBody records ++ u32le (chunkBody records).length) =
        (tail ++ chunkBody records) ++ u32le (chunkBody records).length by
      simp [List.append_assoc]]
    rw [peelTailChunk_append tail (chunkBody records) hlt]
    rw [peelRecords_chunkBody records hbound (chunkBody records).length (Nat.le_refl _)]
    rfl

/-- Witness for C8: a no-op packet appends an (empty) chunk, and peeling a
concrete two-record chunk off the tail recovers both records in reverse. -/
theorem claim_C8_witness :
    (∃ records, ([] : List Nat) = chunkFile records ∧
      (0 : Nat) = 0 + records.length ∧
      ∀ record ∈ records, record.length ≤ 255) ∧
    peelTailChunk ([9] ++ chunkFile [[7, 8], [5]]) = some ([[5], [7, 8]], [9]) := by
  constructor
  · have hres := (claim_C8_spill_chunk_layout (σ := Unit) (ε := Unit)
      ⟨fun s => .ok (none, s), fun s => .ok (none, s), fun s => .ok (none, s)⟩
      (fun s record s' hok => by
        simp only [Except.ok.injEq, Prod.mk.injEq] at hok
        exact absurd hok.1 (by simp))).1
      ⟨(), some ⟨false, 1, 1, 0⟩, 0, false⟩ true ⟨(), some ⟨false, 1, 1, 0⟩, 0, false⟩ [] rfl
    exact hres
  · exact (claim_C8_spill_chunk_layout (σ := Unit) (ε := Unit)
      ⟨fun s => .ok (none, s), fun s => .ok (none, s), fun s => .ok (none, s)⟩
      (fun s record s' hok => by
        simp only [Except.ok.injEq, Prod.mk.injEq] at hok
        exact absurd hok.1 (by simp))).2
      [[7, 8], [5]] [9] (by decide) (by decide) (by decide)

/-- The running per-level maximum never decreases along the child fold. -/
theorem levelFold_mono (isMerkleCell : Bool) (i : Nat) :
    ∀ (l : List ChildSlot) (a : Nat),
      a ≤ l.foldl (fun d c => max d (childDepthVal isMerkleCell i c + 1)) a := by
  intro l
  induction l with
  | nil => exact fun a => Nat.le_refl a
  | cons c rest ih =>
    intro a
    exact Nat.le_trans (Nat.le_max_left _ _) (ih (max a (childDepthVal isMerkleCell i c + 1)))

/-- With pruned data present, `childDepth` is total and returns
`childDepthVal`. -/
theorem childDepth_eq_val (isMerkleCell : Bool) (i : Nat) (c : ChildSlot)
    (hdata : c.cellType = CellType.prunedBranch → c.prunedData.isSome) :
    childDepth isMerkleCell i c = .ok (childDepthVal isMerkleCell i c) := by
  by_cases hp : c.cellType = CellType.prunedBranch
  · rcases hpd : c.prunedData with - | pd
    · have := hdata hp
      rw [hpd] at this
      exact absurd this (by simp)
    · simp [childDepth, childDepthVal, hp, hpd]
  · simp [childDepth, childDepthVal, hp]

/-- The per-level loop computes the fold of `max(·, child_depth + 1)` and
fails with `InvalidCell` exactly when that fold exceeds `MAX_DEPTH`. -/
theorem levelMaxDepth_eq (isMerkleCell : Bool) (i : Nat) :
    ∀ (l : List ChildSlot) (a : Nat),
      (∀ c ∈ l, c.cellType = CellType.prunedBranch → c.prunedData.isSome) →
      a ≤ MAX_DEPTH →
      levelMaxDepth isMerkleCell i l a =
        if MAX_DEPTH < l.foldl (fun d c => max d (childDepthVal isMerkleCell i c + 1)) a
        then .error .invalidCell
        else .ok (l.foldl (fun d c => max d (childDepthVal isMerkleCell i c + 1)) a) := by
  intro l
  induction l with
  | nil =>
    intro a _ ha
    rw [List.foldl_nil, if_neg (by omega)]
    rfl
  | cons c rest ih =>
    intro a hdata ha
    have hc := childDepth_eq_val isMerkleCell i c (hdata c (List.mem_cons_self _ _))
    have hrest : ∀ x ∈ rest, x.cellType = CellType.prunedBranch → x.prunedData.isSome :=
      fun x hx => hdata x (List.mem_cons_of_mem _ hx)
    simp only [levelMaxDepth, hc, List.foldl_cons]
    by_cases hover : max a (childDepthVal isMerkleCell i c + 1) > MAX_DEPTH
    · have hfold := levelFold_mono isMerkleCell i rest
        (max a (childDepthVal isMerkleCell i c + 1))
      rw [if_pos hover, if_pos (by omega)]
    · rw [if_neg hover]
      exact ih (max a (childDepthVal isMerkleCell i c + 1)) hrest (by omega)

/-- Behaviour of the level loop on any list of levels: success returns the
per-level folds, all bounded by `MAX_DEPTH`; any level whose fold exceeds the
bound makes the whole call fail with `InvalidCell`. -/
theorem depthsLoop_spec (isMerkleCell : Bool) (children : List ChildSlot)
    (hdata : ∀ c ∈ children, c.cellType = CellType.prunedBranch → c.prunedData.isSome) :
    ∀ levels : List Nat,
      ((∀ i ∈ levels, levelFoldDepth isMerkleCell i children ≤ MAX_DEPTH) →
        depthsLoop isMerkleCell children levels =
          .ok (levels.map fun i => levelFoldDepth isMerkleCell i children)) ∧
      (∀ ds, depthsLoop isMerkleCell children levels = .ok ds →
        ds = (levels.map fun i => levelFoldDepth isMerkleCell i children) ∧
        ∀ i ∈ levels, levelFoldDepth isMerkleCell i children ≤ MAX_DEPTH) ∧
      ((∃ i ∈ levels, MAX_DEPTH < levelFoldDepth isMerkleCell i children) →
        depthsLoop isMerkleCell children levels = .error .invalidCell) := by
  intro levels
  induction levels with
  | nil =>
    refine ⟨fun _ => rfl, fun ds hds => ?_, ?_⟩
    · simp only [depthsLoop, Except.ok.injEq] at hds
      exact ⟨hds.symm, fun i hi => absurd hi (List.not_mem_nil _)⟩
    · rintro ⟨i, hi, -⟩
      exact absurd hi (List.not_mem_nil _)
  | cons i rest ih =>
    have hlev := levelMaxDepth_eq isMerkleCell i children 0 hdata (by simp [MAX_DEPTH])
    refine ⟨?_, ?_, ?_⟩
    · intro hall
      have hi := hall i (List.mem_cons_self _ _)
      have hrest : ∀ j ∈ rest, levelFoldDepth isMerkleCell j children ≤ MAX_DEPTH :=
        fun j hj => hall j (List.mem_cons_of_mem _ hj)
      simp only [depthsLoop, hlev]
      rw [if_neg (by rw [levelFoldDepth] at hi; omega), ih.1 hrest]
      rfl
    · intro ds hds
      simp only [depthsLoop, hlev] at hds
      by_cases hover : MAX_DEPTH < levelFoldDepth isMerkleCell i children
      · rw [if_pos (by rw [levelFoldDepth] at hover; exact hover)] at hds
        exact Except.noConfusion hds
      · rw [if_neg (by rw [levelFoldDepth] at hover; exact hover)] at hds
        rcases hr : depthsLoop isMerkleCell children rest with e | ds₀
        · rw [hr] at hds
          exact Except.noConfusion hds
        · rw [hr] at hds
          simp only [Except.ok.injEq] at hds
          obtain ⟨hmap, hbound⟩ := ih.2.1 ds₀ hr
          subst hds
          refine ⟨by rw [hmap, List.map_cons, levelFoldDepth], ?_⟩
          intro j hj
          rcases List.mem_cons.mp hj with hh | ht
          · subst hh; omega
          · exact hbound j ht
    · rintro ⟨j, hj, hjover⟩
      rcases List.mem_cons.mp hj with hh | ht
      · subst hh
        simp only [depthsLoop, hlev]
        rw [if_pos (by rw [levelFoldDepth] at hjover; exact hjover)]
      · by_cases hover : MAX_DEPTH < levelFoldDepth isMerkleCell i children
        · simp only [depthsLoop, hlev]
          rw [if_pos (by rw [levelFoldDepth] at hover; exact hover)]
        · simp only [depthsLoop, hlev]
          rw [if_neg (by rw [levelFoldDepth] at hover; exact hover),
            ih.2.2 ⟨j, ht, hjover⟩]

/-- C4: in `finalize_cell`, each hash level maintains
`max_depth[i] = max(max_depth[i], child_depth + 1)` over the children and the
call fails with `InvalidCell` as soon as a level exceeds `MAX_DEPTH` = 60;
consequently every depth stored in the `HashesEntry` (and serialized into the
cell value) of a successfully finalized cell is at most 60. -/
theorem claim_C4_finalize_cell_max_depth (isMerkleCell : Bool)
    (children : List ChildSlot) (hashCount : Nat)
    (hdata : ∀ c ∈ children, c.cellType = CellType.prunedBranch → c.prunedData.isSome) :
    (∀ ds, finalizeCellDepths isMerkleCell children hashCount = .ok ds →
      ds = ((List.range hashCount).map fun i => levelFoldDepth isMerkleCell i children) ∧
      ∀ d ∈ ds, d ≤ MAX_DEPTH) ∧
    ((∀ i, i < hashCount → levelFoldDepth isMerkleCell i children ≤ MAX_DEPTH) →
      finalizeCellDepths isMerkleCell children hashCount =
        .ok ((List.range hashCount).map fun i => levelFoldDepth isMerkleCell i children)) ∧
    ((∃ i, i < hashCount ∧ MAX_DEPTH < levelFoldDepth isMerkleCell i children) →
      finalizeCellDepths isMerkleCell children hashCount = .error .invalidCell) := by
  have hspec := depthsLoop_spec isMerkleCell children hdata (List.range hashCount)
  refine ⟨?_, ?_, ?_⟩
  · intro ds hds
    obtain ⟨hmap, hbound⟩ := hspec.2.1 ds hds
    refine ⟨hmap, ?_⟩
    intro d hd
    rw [hmap] at hd
    obtain ⟨i, hi, rfl⟩ := List.mem_map.mp hd
    exact hbound i hi
  · intro hall
    exact hspec.1 fun i hi => hall i (List.mem_range.mp hi)
  · rintro ⟨i, hi, hover⟩
    exact hspec.2.2 ⟨i, List.mem_range.mpr hi, hover⟩

/-- Witness for C4 on a two-child cell (one ordinary, one pruned): the stored
depths are the per-level maxima and stay at most 60. -/
theorem claim_C4_witness :
    finalizeCellDepths false
        [⟨CellType.ordinary, fun _ => 3, none⟩,
         ⟨CellType.prunedBranch, fun _ => 0, some fun i => 5 + i⟩] 2 =
      .ok [6, 7] := by
  have happ := (claim_C4_finalize_cell_max_depth false
    [⟨CellType.ordinary, fun _ => 3, none⟩,
     ⟨CellType.prunedBranch, fun _ => 0, some fun i => 5 + i⟩] 2
    (by
      intro c hc hp
      rcases List.mem_cons.mp hc with rfl | hc₁
      · exact absurd hp (by decide)
      · rcases List.mem_cons.mp hc₁ with rfl | hc₂
        · rfl
        · exact absurd hc₂ (List.not_mem_nil _))).2.1
    (by decide)
  exact Eq.trans happ rfl

/-- C6: in `get_block`, whenever the merged best upper bound and the merged
greatest lower bound become adjacent, the per-depth step halts the whole
search with `BlockNotFound` when `exact` and with the upper bound otherwise;
a halting step short-circuits the remaining depths; and after all depths the
accumulated result is returned iff `exact` is false, `BlockNotFound` being
returned in every remaining case. -/
theorem claim_C6_get_block_adjacency (db : GetBlockDb) (cmpDesc : LtDesc → Ordering)
    (cmpEntry : LtDbEntry → Ordering) (isMasterchain exact : Bool) :
    (∀ st firstB lastB r, mergeResult st.result lastB = some r →
      r.seq_no = mergeRangeBegin st.index_range_begin firstB + 1 →
      afterSearch exact st firstB lastB =
        .halt (if exact then .error .blockNotFound else .ok r)) ∧
    (∀ pl rest st r,
      getBlockStep db cmpDesc cmpEntry isMasterchain exact pl st = .halt r →
      getBlockLoop db cmpDesc cmpEntry isMasterchain exact (pl :: rest) st = r) ∧
    (∀ st, getBlockLoop db cmpDesc cmpEntry isMasterchain exact [] st =
      getBlockFinal exact st) ∧
    (∀ st r, st.result = some r →
      (exact = false → getBlockFinal exact st = .ok r) ∧
      (exact = true → getBlockFinal exact st = .error .blockNotFound)) ∧
    (∀ st, st.result = none → getBlockFinal exact st = .error .blockNotFound) ∧
    getBlock db cmpDesc cmpEntry isMasterchain exact =
      getBlockLoop db cmpDesc cmpEntry isMasterchain exact
        (List.range (MAX_SPLIT_DEPTH + 1)) ⟨false, none, 0⟩ := by
  refine ⟨?_, ?_, fun st => rfl, ?_, ?_, rfl⟩
  · intro st firstB lastB r hmr hadj
    simp only [afterSearch, hmr]
    rw [if_pos hadj]
    cases exact <;> rfl
  · intro pl rest st r hstep
    rw [getBlockLoop, hstep]
  · intro st r hres
    constructor
    · intro hex
      subst hex
      rw [getBlockFinal, hres]
      rfl
    · intro hex
      subst hex
      rw [getBlockFinal, hres]
      rfl
  · intro st hnone
    rw [getBlockFinal, hnone]

/-- Witness for C6: an adjacent pair (upper bound seq 5, lower bound seq 4)
halts with `BlockNotFound` under `exact` and with the result otherwise, and
the post-loop fallthrough returns the result iff not `exact`. -/
theorem claim_C6_witness :
    afterSearch true ⟨true, some ⟨0, 0, 5, 0, 0⟩, 0⟩ (some ⟨0, 0, 4, 0, 0⟩) none =
      .halt (.error .blockNotFound) ∧
    afterSearch false ⟨true, some ⟨0, 0, 5, 0, 0⟩, 0⟩ (some ⟨0, 0, 4, 0, 0⟩) none =
      .halt (.ok ⟨0, 0, 5, 0, 0⟩) ∧
    getBlockFinal false ⟨true, some ⟨0, 0, 5, 0, 0⟩, 4⟩ = .ok ⟨0, 0, 5, 0, 0⟩ ∧
    getBlockFinal true ⟨true, some ⟨0, 0, 5, 0, 0⟩, 4⟩ = .error .blockNotFound :=
  ⟨(claim_C6_get_block_adjacency ⟨fun _ => none, fun _ _ => none⟩ (fun _ => Ordering.eq)
      (fun _ => Ordering.eq) false true).1
      ⟨true, some ⟨0, 0, 5, 0, 0⟩, 0⟩ (some ⟨0, 0, 4, 0, 0⟩) none ⟨0, 0, 5, 0, 0⟩
      (by decide) (by decide),
   (claim_C6_get_block_adjacency ⟨fun _ => none, fun _ _ => none⟩ (fun _ => Ordering.eq)
      (fun _ => Ordering.eq) false false).1
      ⟨true, some ⟨0, 0, 5, 0, 0⟩, 0⟩ (some ⟨0, 0, 4, 0, 0⟩) none ⟨0, 0, 5, 0, 0⟩
      (by decide) (by decide),
   ((claim_C6_get_block_adjacency ⟨fun _ => none, fun _ _ => none⟩ (fun _ => Ordering.eq)
      (fun _ => Ordering.eq) false false).2.2.2.1
      ⟨true, some ⟨0, 0, 5, 0, 0⟩, 4⟩ ⟨0, 0, 5, 0, 0⟩ rfl).1 rfl,
   ((claim_C6_get_block_adjacency ⟨fun _ => none, fun _ _ => none⟩ (fun _ => Ordering.eq)
      (fun _ => Ordering.eq) false true).2.2.2.1
      ⟨true, some ⟨0, 0, 5, 0, 0⟩, 4⟩ ⟨0, 0, 5, 0, 0⟩ rfl).2 rfl⟩

end TonIndexer
